import Mathlib

/-!
Shallow embedding of the identifier-allocation script
`04-allocate-ReefIDs.py` of the CS_AIMS_Coral-Sea-Features repository,
together with proofs about the spec's claims on it.

Python strings are modelled as `List Char`, Python `None`/missing values as
`Option`, Python floats (only ever used here for exact decimal coordinate
arithmetic) as `ℚ`, Python sets (used only through membership tests) as
`Finset`, Python dicts keyed by strings (used with default-initialisation
guards, so semantically total maps with a default) as total functions, and a
raised exception as `Except.error`.
-/

deriving instance DecidableEq for Except

namespace CSF

/-- A Python string, modelled as its list of characters. -/
abbrev Str := List Char

/-- `BASE_B32_CAPS = '23456789ABCDEFGHJKLMNPQRSTUVWXYZ'` (script line 15). -/
def BASE_B32_CAPS : Str := "23456789ABCDEFGHJKLMNPQRSTUVWXYZ".toList

/-- `BASE_B32_LOWER = '23456789abcdefghjklmnpqrstuvwxyz'` (line 16). -/
def BASE_B32_LOWER : Str := "23456789abcdefghjklmnpqrstuvwxyz".toList

/-- `BASE_B10 = '0123456789'` (line 17), the default base character set. -/
def BASE_B10 : Str := "0123456789".toList

/-- `BASE_B16 = '0123456789ABCDEF'` (line 18). -/
def BASE_B16 : Str := "0123456789ABCDEF".toList

/-- `BASE_B14 = '23456789ABCDEF'` (line 19). -/
def BASE_B14 : Str := "23456789ABCDEF".toList

/-- An alphabet usable as a base character set: pairwise-distinct symbols and
base at least 2 (every `BASE_*` constant of the script satisfies this; with
fewer than 2 symbols the script's encoding loop would not terminate). -/
def valid_alphabet (alpha : Str) : Prop := alpha.Nodup ∧ 2 ≤ alpha.length

instance (alpha : Str) : Decidable (valid_alphabet alpha) :=
  decidable_of_iff (alpha.Nodup ∧ 2 ≤ alpha.length) Iff.rfl

/-- Python's index adjustment for list subscripts: a negative index counts
from the end of the list. -/
def py_wrap (len : Nat) (value : Int) : Int := if value < 0 then value + len else value

/-- `encode_base_str(value) = base_char_set[value]` (line 36-37): Python list
indexing, which wraps one length for negative indices and raises `IndexError`
(modelled as `none`) outside `[-len, len)`. -/
def encode_base_str (alpha : Str) (value : Int) : Option Char :=
  if 0 ≤ py_wrap alpha.length value then alpha[(py_wrap alpha.length value).toNat]? else none

/-- `decode_base_str(char) = base_char_set.index(char)` (line 39-40): position
of the first occurrence, `ValueError` (modelled as `none`) when absent. -/
def decode_base_str (alpha : Str) (c : Char) : Option Nat :=
  if c ∈ alpha then some (alpha.indexOf c) else none

/-- Python's float `%` for a positive modulus, on exact rationals:
`x % y = x - y * floor (x / y)`. -/
def pyMod (x y : ℚ) : ℚ := x - y * ⌊x / y⌋

/-- `LON_SLICE_SIZE = 360 / encoding_base` (line 33). -/
def LON_SLICE_SIZE (alpha : Str) : ℚ := 360 / alpha.length

/-- `LAT_SLICE_SIZE = 180 / encoding_base` (line 34). -/
def LAT_SLICE_SIZE (alpha : Str) : ℚ := 180 / alpha.length

/-- `lon_major = int(lon // LON_SLICE_SIZE)` (line 52), after the domain
shift `lon += 180` of line 49 (float floor division, exact on rationals). -/
def lon_major (alpha : Str) (lon : ℚ) : Int := ⌊(lon + 180) / LON_SLICE_SIZE alpha⌋

/-- `lat_major = int(lat // LAT_SLICE_SIZE)` (line 53), after `lat += 90`. -/
def lat_major (alpha : Str) (lat : ℚ) : Int := ⌊(lat + 90) / LAT_SLICE_SIZE alpha⌋

/-- `lon_sub = int((lon % LON_SLICE_SIZE) // (LON_SLICE_SIZE / encoding_base))`
(line 54). -/
def lon_sub (alpha : Str) (lon : ℚ) : Int :=
  ⌊pyMod (lon + 180) (LON_SLICE_SIZE alpha) / (LON_SLICE_SIZE alpha / alpha.length)⌋

/-- `lat_sub = int((lat % LAT_SLICE_SIZE) // (LAT_SLICE_SIZE / encoding_base))`
(line 55). -/
def lat_sub (alpha : Str) (lat : ℚ) : Int :=
  ⌊pyMod (lat + 90) (LAT_SLICE_SIZE alpha) / (LAT_SLICE_SIZE alpha / alpha.length)⌋

/-- Assembling the four digit characters of a grid code into the 4-character
string of line 57, propagating a digit-lookup failure. -/
def grid4 : Option Char → Option Char → Option Char → Option Char → Option Str
  | some a, some b, some c, some d => some [a, b, c, d]
  | _, _, _, _ => none

/-- `encode_grid(lon, lat)` (lines 47-57): shift the domain, take major and
sub slice indices by floor division, and emit the four digits in the order
lon-major, lon-sub, lat-major, lat-sub (the f-string of line 57). `none`
models an `IndexError` from an out-of-range digit. -/
def encode_grid (alpha : Str) (lon lat : ℚ) : Option Str :=
  grid4 (encode_base_str alpha (lon_major alpha lon)) (encode_base_str alpha (lon_sub alpha lon))
    (encode_base_str alpha (lat_major alpha lat)) (encode_base_str alpha (lat_sub alpha lat))

/-- The digit loop of `encode_counter` (lines 61-63) with explicit fuel (the
loop runs at most `counter` times since the counter shrinks by a factor of at
least 2 per iteration): repeatedly divide by the base, collecting
`counter % base` most-significant-first. The guard `2 ≤ b` is the termination
condition of the Python `while` loop (every `BASE_*` alphabet has at least 2
symbols; with 0 or 1 symbols the loop would raise or spin forever). -/
def encode_digits_go (b : Nat) : Nat → Nat → List Nat
  | 0, _ => []
  | fuel + 1, counter =>
    if 0 < counter ∧ 2 ≤ b then
      encode_digits_go b fuel (counter / b) ++ [counter % b]
    else []

/-- The digit string of `encode_counter` before padding (lines 60-63). -/
def encode_digits (b counter : Nat) : List Nat := encode_digits_go b counter counter

/-- `encode_counter(counter, zero_padding)` (lines 59-66): base conversion of
`counter`, left-padded with the alphabet's zero symbol up to `zero_padding`
characters. The digit values are always in range, so the `getD` default is
never consulted for a nonempty alphabet. -/
def encode_counter (alpha : Str) (counter zero_padding : Nat) : Str :=
  let encoded := (encode_digits alpha.length counter).map (fun d => alpha.getD d ' ')
  List.replicate (zero_padding - encoded.length) (alpha.getD 0 ' ') ++ encoded

/-- `decode_counter(encoded_counter)` (lines 68-72): positional evaluation,
failing (`ValueError`, modelled `none`) on a character outside the alphabet. -/
def decode_counter (alpha : Str) (s : Str) : Option Nat :=
  s.foldlM (fun acc c => (decode_base_str alpha c).map (fun d => acc * alpha.length + d)) 0

/-- Python `str.split('-')`: split at every hyphen, keeping empty pieces;
the result is never the empty list. -/
def split_on_hyphen : Str → List Str
  | [] => [[]]
  | c :: rest =>
    if c = '-' then [] :: split_on_hyphen rest
    else
      match split_on_hyphen rest with
      | [] => [[c]]
      | p :: ps => (c :: p) :: ps

/-- `f"{prefix}-{grid_scheme}-{encoded_counter}"` (line 137). -/
def reef_id (pfx g e : Str) : Str := pfx ++ '-' :: (g ++ '-' :: e)

/-- A geographic feature as the allocator sees it: its centroid coordinates
(EPSG:4326 longitude and latitude of `gdf.geometry.centroid`), the other
attribute columns (opaque to the allocator), and the optional `ReefID`
column (`none` models a missing value, for which `pd.isna` holds). -/
structure Feature where
  lon : ℚ
  lat : ℚ
  attrs : Str
  reefID : Option Str
deriving DecidableEq, Repr

/-- `centroid_sum` column (line 113): centroid longitude + latitude. -/
def centroid_sum (f : Feature) : ℚ := f.lon + f.lat

/-- The allocator's process-local state: `grid_feature_count` (missing keys
read as 0, matching the script's default-initialisation guards) and
`grid_existing_ids` (missing keys read as the empty set; the script only ever
tests membership in these sets). -/
structure AllocState where
  count : Str → Str → Nat
  ids : Str → Str → Finset Str

/-- Point update of `grid_feature_count` at one (prefix, gridcode) key. -/
def setCount (f : Str → Str → Nat) (p g : Str) (n : Nat) : Str → Str → Nat :=
  fun p2 g2 => if p2 = p ∧ g2 = g then n else f p2 g2

/-- `grid_existing_ids[p][g].add(e)` as a point update. -/
def addId (f : Str → Str → Finset Str) (p g : Str) (e : Str) : Str → Str → Finset Str :=
  fun p2 g2 => if p2 = p ∧ g2 = g then insert e (f p2 g2) else f p2 g2

/-- One step of the existing-`ReefID` pass (lines 94-109): unpack
`reef_id.split('-')` into exactly three parts (a `ValueError`, modelled as
`Except.error`, otherwise), record the countercode as occupied, and raise the
stored next-counter to `decode_counter(countercode) + 1` if larger
(`decode_counter` itself may raise on a foreign character). -/
def register_existing (alpha : Str) (st : AllocState) (rid : Str) : Except Str AllocState :=
  match split_on_hyphen rid with
  | [p, g, c] =>
    match decode_counter alpha c with
    | some d =>
      Except.ok ⟨setCount st.count p g (max (st.count p g) (d + 1)), addId st.ids p g c⟩
    | none => Except.error rid
  | _ => Except.error rid

/-- The empty allocation state (both dictionaries empty). -/
def emptyState : AllocState := ⟨fun _ _ => 0, fun _ _ => ∅⟩

/-- One row of the existing-`ReefID` pass: rows with a missing `ReefID`
(`pd.isna`) are skipped (line 94). -/
def init_step (alpha : Str) (st : AllocState) (f : Feature) : Except Str AllocState :=
  match f.reefID with
  | some rid => register_existing alpha st rid
  | none => Except.ok st

/-- The whole existing-`ReefID` pass, in row order (lines 91-109). -/
def init_state (alpha : Str) (features : List Feature) : Except Str AllocState :=
  features.foldlM (init_step alpha) emptyState

/-- The grid code of one feature's centroid, an `IndexError` when a digit
falls outside the alphabet. -/
def code_of (alpha : Str) (f : Feature) : Except Str Str :=
  match encode_grid alpha f.lon f.lat with
  | some g => Except.ok g
  | none => Except.error []

/-- `grid_schemes = gdf['centroid'].apply(... encode_grid ...)` (line 117):
the grid code of every feature, labelled or not, failing on the first
feature whose digits fall outside the alphabet. -/
def grid_codes (alpha : Str) (features : List Feature) : Except Str (List Str) :=
  features.mapM (code_of alpha)

/-- `grid_schemes.unique()` (line 118): distinct values in order of first
appearance. -/
def unique_codes (codes : List Str) : List Str :=
  codes.foldl (fun acc g => if g ∈ acc then acc else acc ++ [g]) []

/-- `gdf[grid_schemes == grid_scheme]` (line 119) over rows carrying their
original index and grid code: the rows of one grid cell, in input order. -/
def group_features (items : List (Nat × Feature × Str)) (g : Str) : List (Nat × Feature) :=
  (items.filter (fun it => decide (it.2.2 = g))).map (fun it => (it.1, it.2.1))

/-- `.sort_values(by='centroid_sum')` (line 119): ascending stable sort by
centroid sum (numpy's sort on the small groups at hand is insertion sort,
which is stable, so ties keep input order). -/
def sort_group (l : List (Nat × Feature)) : List (Nat × Feature) :=
  List.insertionSort (fun a b => centroid_sum a.2 ≤ centroid_sum b.2) l

/-- The collision-retry loop (lines 133-135). The Python loop is unbounded;
here it carries fuel, and `assign_step` passes one more than the number of
occupied countercodes, which (for a valid alphabet) is enough for the loop to
exit on the same counter the unbounded loop would. -/
def find_free_counter (alpha : Str) (pad : Nat) (occ : Finset Str) : Nat → Nat → Nat
  | 0, c => c
  | fuel + 1, c =>
    if encode_counter alpha c pad ∈ occ then find_free_counter alpha pad occ fuel (c + 1)
    else c

/-- The counter committed for the next unlabelled feature of cell `g`
(lines 130-135): start from the stored next-counter and advance past occupied
countercodes. One more than the number of occupied countercodes is enough
fuel for the retry loop to exit exactly where the script's unbounded `while`
does. -/
def chosen (alpha pfx : Str) (pad : Nat) (g : Str) (st : AllocState) : Nat :=
  find_free_counter alpha pad (st.ids pfx g) ((st.ids pfx g).card + 1) (st.count pfx g)

/-- The body of the per-feature loop (lines 121-140) acting on the state and
the accumulated list of (row index, allocated counter) pairs: rows that
already have a `ReefID` are skipped; otherwise the next counter for
(prefix, gridcode) is taken, advanced past occupied countercodes, committed,
and the stored next-counter becomes the committed counter plus one. Newly
allocated countercodes are not added to the occupied set, exactly as in the
script. -/
def assign_step (alpha pfx : Str) (pad : Nat) (g : Str)
    (acc : AllocState × List (Nat × Nat)) (it : Nat × Feature) : AllocState × List (Nat × Nat) :=
  match it.2.reefID with
  | some _ => acc
  | none =>
    (⟨setCount acc.1.count pfx g (chosen alpha pfx pad g acc.1 + 1), acc.1.ids⟩,
      acc.2 ++ [(it.1, chosen alpha pfx pad g acc.1)])

/-- The per-feature loop over one sorted grid-cell group. -/
def assign_group (alpha pfx : Str) (pad : Nat) (g : Str) (st : AllocState)
    (group : List (Nat × Feature)) : AllocState × List (Nat × Nat) :=
  group.foldl (assign_step alpha pfx pad g) (st, [])

/-- One iteration of the outer loop over `grid_schemes.unique()`: process the
sorted rows of cell `g` and append the resulting (row index, `ReefID`)
assignments. -/
def group_step (alpha pfx : Str) (pad : Nat) (items : List (Nat × Feature × Str))
    (acc : AllocState × List (Nat × Str)) (g : Str) : AllocState × List (Nat × Str) :=
  ((assign_group alpha pfx pad g acc.1 (sort_group (group_features items g))).1,
    acc.2 ++ (assign_group alpha pfx pad g acc.1 (sort_group (group_features items g))).2.map
      (fun ic => (ic.1, reef_id pfx g (encode_counter alpha ic.2 pad))))

/-- The outer loop over `grid_schemes.unique()` (lines 118-140), returning
every (row index, new `ReefID` string) assignment made during the run. -/
def assign_all (alpha pfx : Str) (pad : Nat) (st0 : AllocState)
    (items : List (Nat × Feature × Str)) : List (Nat × Str) :=
  ((unique_codes (items.map (fun it => it.2.2))).foldl
    (group_step alpha pfx pad items) (st0, ([] : List (Nat × Str)))).2

/-- The new `ReefID` written to row `i`, if any (`gdf.at[idx, 'ReefID'] = ...`
of line 139; each row index is assigned at most once). -/
def lookup_assignment (asg : List (Nat × Str)) (i : Nat) : Option Str :=
  (asg.find? (fun a => decide (a.1 = i))).map (fun a => a.2)

/-- The final feature collection: every row keeps its place; rows that
received an assignment get it as their `ReefID`. -/
def apply_assignments (features : List Feature) (asg : List (Nat × Str)) : List Feature :=
  features.enum.map (fun p =>
    match lookup_assignment asg p.1 with
    | some rid => { p.2 with reefID := some rid }
    | none => p.2)

/-- `process_shapefile(input, output, prefix, zero_padding)` (lines 74-149)
under a base character set `alpha`: run the existing-ID pass, compute every
feature's grid code, run the assignment pass, and return the updated
collection; `Except.error` models an uncaught Python exception aborting the
run before anything is written. -/
def process_shapefile (alpha pfx : Str) (pad : Nat) (input : List Feature) :
    Except Str (List Feature) := do
  let st0 ← init_state alpha input
  let codes ← grid_codes alpha input
  let items := input.enum.zipWith (fun p g => (p.1, p.2, g)) codes
  Except.ok (apply_assignments input (assign_all alpha pfx pad st0 items))

/-- The `ReefID`s present in a feature collection, in row order. -/
def output_reef_ids (l : List Feature) : List Str := l.filterMap Feature.reefID

/-- The single test case of `run_tests` (lines 153-155): the script asserts
`encode_grid(147, -20) == 'XE4G'`. -/
def run_tests_case : ℚ × ℚ × Str := (147, -20, ['X', 'E', '4', 'G'])

/-! ### Lemmas about `split_on_hyphen` -/

theorem split_on_hyphen_nil : split_on_hyphen [] = [[]] := rfl

theorem split_on_hyphen_hyphen_cons (r : Str) :
    split_on_hyphen ('-' :: r) = [] :: split_on_hyphen r := by
  simp [split_on_hyphen]

theorem split_on_hyphen_ne_nil (s : Str) : split_on_hyphen s ≠ [] := by
  induction s with
  | nil => simp [split_on_hyphen]
  | cons c rest ih =>
    simp only [split_on_hyphen]
    by_cases hc : c = '-'
    · simp [hc]
    · simp only [if_neg hc]
      cases h : split_on_hyphen rest with
      | nil => simp
      | cons p ps => simp

theorem split_on_hyphen_prepend {a : Str} (ha : '-' ∉ a) {r : Str} {p : Str} {ps : List Str}
    (hr : split_on_hyphen r = p :: ps) : split_on_hyphen (a ++ r) = (a ++ p) :: ps := by
  induction a with
  | nil => simpa using hr
  | cons c a ih =>
    have hc : ¬ c = '-' := fun h => ha (by simp [h])
    have ih2 := ih (fun h => ha (List.mem_cons_of_mem _ h))
    simp only [List.cons_append, split_on_hyphen, if_neg hc, List.append_eq, ih2]

theorem split_on_hyphen_no_hyphen {s : Str} (hs : '-' ∉ s) : split_on_hyphen s = [s] := by
  have h := @split_on_hyphen_prepend s hs [] [] [] rfl
  simpa using h

theorem split_on_hyphen_reef_id {pfx g e : Str} (hp : '-' ∉ pfx) (hg : '-' ∉ g) (he : '-' ∉ e) :
    split_on_hyphen (reef_id pfx g e) = [pfx, g, e] := by
  have h1 : split_on_hyphen ('-' :: e) = [] :: [e] := by
    rw [split_on_hyphen_hyphen_cons, split_on_hyphen_no_hyphen he]
  have h2 : split_on_hyphen (g ++ '-' :: e) = [g, e] := by
    have := split_on_hyphen_prepend hg h1
    simpa using this
  have h3 : split_on_hyphen ('-' :: (g ++ '-' :: e)) = [] :: [g, e] := by
    rw [split_on_hyphen_hyphen_cons, h2]
  have h4 := split_on_hyphen_prepend hp h3
  simpa [reef_id] using h4

theorem split_on_hyphen_length (s : Str) :
    (split_on_hyphen s).length = s.count '-' + 1 := by
  induction s with
  | nil => simp [split_on_hyphen]
  | cons c rest ih =>
    by_cases hc : c = '-'
    · subst hc
      simp [split_on_hyphen_hyphen_cons, ih, List.count_cons]
    · simp only [split_on_hyphen, if_neg hc]
      cases h : split_on_hyphen rest with
      | nil => exact absurd h (split_on_hyphen_ne_nil rest)
      | cons p ps =>
        have ih2 := ih
        rw [h] at ih2
        simp only [List.length_cons] at ih2 ⊢
        rw [List.count_cons]
        simp [hc, ih2]

theorem count_reef_id (pfx g e : Str) :
    (reef_id pfx g e).count '-' = pfx.count '-' + g.count '-' + e.count '-' + 2 := by
  simp only [reef_id, List.count_append, List.count_cons]
  simp
  ring

/-! ### Lemmas about the counter codec -/

theorem encode_digits_go_eq (b : Nat) :
    ∀ (fuel1 fuel2 n : Nat), n ≤ fuel1 → n ≤ fuel2 →
      encode_digits_go b fuel1 n = encode_digits_go b fuel2 n := by
  intro fuel1
  induction fuel1 with
  | zero =>
    intro fuel2 n h1 h2
    have hn : n = 0 := by omega
    subst hn
    cases fuel2 with
    | zero => rfl
    | succ fuel2 => simp [encode_digits_go]
  | succ fuel1 ih =>
    intro fuel2 n h1 h2
    cases fuel2 with
    | zero =>
      have hn : n = 0 := by omega
      subst hn
      simp [encode_digits_go]
    | succ fuel2 =>
      simp only [encode_digits_go]
      split
      · rename_i h
        have hdiv : n / b < n := Nat.div_lt_self h.1 h.2
        rw [ih fuel2 (n / b) (by omega) (by omega)]
      · rfl

/-- The unfolding equation of the digit loop: the fuel `counter` is always
sufficient. -/
theorem encode_digits_eq (b n : Nat) :
    encode_digits b n =
      if 0 < n ∧ 2 ≤ b then encode_digits b (n / b) ++ [n % b] else [] := by
  unfold encode_digits
  cases n with
  | zero => simp [encode_digits_go]
  | succ n =>
    simp only [encode_digits_go]
    split
    · rename_i h
      have hdiv : (n + 1) / b < n + 1 := Nat.div_lt_self h.1 h.2
      rw [encode_digits_go_eq b n ((n + 1) / b) ((n + 1) / b) (by omega) (le_refl _)]
    · rfl

theorem encode_digits_lt (b n : Nat) : ∀ d ∈ encode_digits b n, d < b := by
  induction n using Nat.strong_induction_on with
  | _ n ih =>
    rw [encode_digits_eq]
    split
    · rename_i h
      intro d hd
      rcases List.mem_append.1 hd with h1 | h1
      · exact ih (n / b) (Nat.div_lt_self h.1 h.2) d h1
      · simp only [List.mem_singleton] at h1
        subst h1
        exact Nat.mod_lt _ (by omega)
    · simp

theorem foldl_encode_digits {b : Nat} (hb : 2 ≤ b) (n : Nat) :
    ∀ acc : Nat, (encode_digits b n).foldl (fun a d => a * b + d) acc =
      acc * b ^ (encode_digits b n).length + n := by
  induction n using Nat.strong_induction_on with
  | _ n ih =>
    intro acc
    rw [encode_digits_eq]
    split
    · rename_i h
      rw [List.foldl_append]
      simp only [List.foldl_cons, List.foldl_nil, List.length_append, List.length_singleton]
      rw [ih (n / b) (Nat.div_lt_self h.1 h.2) acc]
      have hmod : b * (n / b) + n % b = n := Nat.div_add_mod n b
      calc (acc * b ^ (encode_digits b (n / b)).length + n / b) * b + n % b
          = acc * (b ^ (encode_digits b (n / b)).length * b) + (b * (n / b) + n % b) := by ring
        _ = acc * b ^ ((encode_digits b (n / b)).length + 1) + n := by rw [pow_succ, hmod]
    · rename_i h
      have hn : n = 0 := by omega
      simp [hn]

theorem encode_digits_zero (b : Nat) : encode_digits b 0 = [] := rfl

theorem encode_counter_zero (alpha : Str) (pad : Nat) :
    encode_counter alpha 0 pad = List.replicate pad (alpha.getD 0 ' ') := by
  simp [encode_counter, encode_digits_zero]

theorem decode_counter_map_getD {alpha : Str} (hnd : alpha.Nodup) :
    ∀ (l : List Nat) (acc : Nat), (∀ d ∈ l, d < alpha.length) →
      List.foldlM (fun acc c =>
          (decode_base_str alpha c).map (fun d => acc * alpha.length + d)) acc
        (l.map (fun d => alpha.getD d ' ')) =
      some (l.foldl (fun a d => a * alpha.length + d) acc) := by
  intro l
  induction l with
  | nil => intro acc _; rfl
  | cons d l ih =>
    intro acc hl
    have hd : d < alpha.length := hl d (by simp)
    have hD : alpha.getD d ' ' = alpha[d] := List.getD_eq_getElem alpha ' ' hd
    have hmem : alpha.getD d ' ' ∈ alpha := by
      rw [hD]; exact List.getElem_mem hd
    have hidx : alpha.indexOf (alpha.getD d ' ') = d := by
      rw [hD]; exact List.indexOf_getElem hnd d hd
    simp only [List.map_cons, List.foldlM, decode_base_str, if_pos hmem, hidx,
      Option.map_some, Option.bind_eq_bind, Option.some_bind]
    exact ih (acc * alpha.length + d) (fun x hx => hl x (by simp [hx]))

theorem foldl_replicate_zero (b : Nat) (k : Nat) :
    (List.replicate k 0).foldl (fun a d => a * b + d) 0 = 0 := by
  induction k with
  | zero => rfl
  | succ k ih => simpa [List.replicate_succ] using ih

theorem decode_encode_counter {alpha : Str} (hv : valid_alphabet alpha) (n pad : Nat) :
    decode_counter alpha (encode_counter alpha n pad) = some n := by
  obtain ⟨hnd, hb⟩ := hv
  have hlen0 : 0 < alpha.length := by omega
  simp only [decode_counter, encode_counter]
  rw [show (List.replicate
        (pad - ((encode_digits alpha.length n).map (fun d => alpha.getD d ' ')).length)
        (alpha.getD 0 ' ')) =
      ((List.replicate
        (pad - ((encode_digits alpha.length n).map (fun d => alpha.getD d ' ')).length) 0).map
        (fun d => alpha.getD d ' ')) by simp [List.map_replicate]]
  rw [← List.map_append]
  rw [decode_counter_map_getD hnd _ 0]
  · rw [List.foldl_append]
    rw [foldl_replicate_zero]
    rw [foldl_encode_digits hb n 0]
    simp
  · intro d hd
    rcases List.mem_append.1 hd with h1 | h1
    · have := List.eq_of_mem_replicate h1
      omega
    · exact encode_digits_lt _ _ d h1

theorem encode_counter_inj {alpha : Str} (hv : valid_alphabet alpha) {pad n1 n2 : Nat}
    (h : encode_counter alpha n1 pad = encode_counter alpha n2 pad) : n1 = n2 := by
  have h1 := decode_encode_counter hv n1 pad
  have h2 := decode_encode_counter hv n2 pad
  rw [h, h2] at h1
  exact (Option.some_injective _ h1).symm

theorem encode_counter_mem {alpha : Str} (hlen : 0 < alpha.length) (n pad : Nat) :
    ∀ c ∈ encode_counter alpha n pad, c ∈ alpha := by
  intro c hc
  unfold encode_counter at hc
  rcases List.mem_append.1 hc with h1 | h1
  · have := List.eq_of_mem_replicate h1
    subst this
    rw [List.getD_eq_getElem alpha ' ' hlen]
    exact List.getElem_mem hlen
  · rcases List.mem_map.1 h1 with ⟨d, hd, hdc⟩
    have hdlt : d < alpha.length := encode_digits_lt _ _ d hd
    rw [← hdc, List.getD_eq_getElem alpha ' ' hdlt]
    exact List.getElem_mem hdlt

theorem encode_counter_no_hyphen {alpha : Str} (hlen : 0 < alpha.length)
    (hnh : '-' ∉ alpha) (n pad : Nat) : '-' ∉ encode_counter alpha n pad := by
  intro h
  exact hnh (encode_counter_mem hlen n pad '-' h)

/-! ### Lemmas about the grid encoder -/

theorem pyMod_nonneg {x y : ℚ} (hy : 0 < y) : 0 ≤ pyMod x y := by
  unfold pyMod
  rw [sub_nonneg]
  have h := Int.floor_le (x / y)
  have h2 : y * (⌊x / y⌋ : ℚ) ≤ y * (x / y) := mul_le_mul_of_nonneg_left h hy.le
  have hxy : y * (x / y) = x := by field_simp
  linarith

theorem pyMod_lt {x y : ℚ} (hy : 0 < y) : pyMod x y < y := by
  unfold pyMod
  rw [sub_lt_iff_lt_add]
  have h := Int.lt_floor_add_one (x / y)
  have h2 : y * (x / y) < y * ((⌊x / y⌋ : ℚ) + 1) := mul_lt_mul_of_pos_left h hy
  have hxy : y * (x / y) = x := by field_simp
  rw [hxy, mul_add, mul_one] at h2
  linarith

theorem floor_div_slice_range {x T : ℚ} {n : ℕ} (hx0 : 0 ≤ x) (hxT : x < T) (hn : 0 < n)
    (hT : 0 < T) : 0 ≤ ⌊x / (T / n)⌋ ∧ ⌊x / (T / n)⌋ < (n : ℤ) := by
  have hn2 : (0:ℚ) < (n:ℚ) := by exact_mod_cast hn
  have hTn : (0:ℚ) < T / n := div_pos hT hn2
  refine ⟨Int.floor_nonneg.mpr (div_nonneg hx0 hTn.le), ?_⟩
  rw [Int.floor_lt]
  push_cast
  rw [div_lt_iff hTn]
  have heq : (n:ℚ) * (T / n) = T := by field_simp
  linarith

theorem encode_base_str_of_range {alpha : Str} {v : Int} (h0 : 0 ≤ v)
    (h1 : v < alpha.length) : ∃ c, encode_base_str alpha v = some c ∧ c ∈ alpha := by
  have hw : py_wrap alpha.length v = v := if_neg (by omega)
  have hlt : v.toNat < alpha.length := by omega
  refine ⟨alpha[v.toNat], ?_, List.getElem_mem hlt⟩
  rw [encode_base_str, hw, if_pos h0]
  exact List.getElem?_eq_getElem hlt

theorem lon_major_range {alpha : Str} (hlen : 0 < alpha.length) {lon : ℚ}
    (h1 : -180 ≤ lon) (h2 : lon < 180) :
    0 ≤ lon_major alpha lon ∧ lon_major alpha lon < alpha.length := by
  unfold lon_major LON_SLICE_SIZE
  exact floor_div_slice_range (by linarith) (by linarith) hlen (by norm_num)

theorem lat_major_range {alpha : Str} (hlen : 0 < alpha.length) {lat : ℚ}
    (h1 : -90 ≤ lat) (h2 : lat < 90) :
    0 ≤ lat_major alpha lat ∧ lat_major alpha lat < alpha.length := by
  unfold lat_major LAT_SLICE_SIZE
  exact floor_div_slice_range (by linarith) (by linarith) hlen (by norm_num)

theorem lon_sub_range {alpha : Str} (hlen : 0 < alpha.length) (lon : ℚ) :
    0 ≤ lon_sub alpha lon ∧ lon_sub alpha lon < alpha.length := by
  have hs : (0:ℚ) < LON_SLICE_SIZE alpha := by
    unfold LON_SLICE_SIZE
    exact div_pos (by norm_num) (Nat.cast_pos.mpr hlen)
  unfold lon_sub
  exact floor_div_slice_range (pyMod_nonneg hs) (pyMod_lt hs) hlen hs

theorem lat_sub_range {alpha : Str} (hlen : 0 < alpha.length) (lat : ℚ) :
    0 ≤ lat_sub alpha lat ∧ lat_sub alpha lat < alpha.length := by
  have hs : (0:ℚ) < LAT_SLICE_SIZE alpha := by
    unfold LAT_SLICE_SIZE
    exact div_pos (by norm_num) (Nat.cast_pos.mpr hlen)
  unfold lat_sub
  exact floor_div_slice_range (pyMod_nonneg hs) (pyMod_lt hs) hlen hs

theorem encode_grid_total {alpha : Str} (hlen : 0 < alpha.length) {lon lat : ℚ}
    (hlon1 : -180 ≤ lon) (hlon2 : lon < 180) (hlat1 : -90 ≤ lat) (hlat2 : lat < 90) :
    ∃ s, encode_grid alpha lon lat = some s ∧ s.length = 4 ∧ ∀ c ∈ s, c ∈ alpha := by
  obtain ⟨hM1a, hM1b⟩ := lon_major_range hlen hlon1 hlon2
  obtain ⟨hM2a, hM2b⟩ := lat_major_range hlen hlat1 hlat2
  obtain ⟨hS1a, hS1b⟩ := lon_sub_range hlen lon
  obtain ⟨hS2a, hS2b⟩ := lat_sub_range hlen lat
  obtain ⟨c1, hc1, hm1⟩ := encode_base_str_of_range hM1a hM1b
  obtain ⟨c2, hc2, hm2⟩ := encode_base_str_of_range hS1a hS1b
  obtain ⟨c3, hc3, hm3⟩ := encode_base_str_of_range hM2a hM2b
  obtain ⟨c4, hc4, hm4⟩ := encode_base_str_of_range hS2a hS2b
  refine ⟨[c1, c2, c3, c4], ?_, rfl, ?_⟩
  · rw [encode_grid, hc1, hc2, hc3, hc4]
    rfl
  · intro c hc
    simp only [List.mem_cons, List.not_mem_nil, or_false] at hc
    rcases hc with rfl | rfl | rfl | rfl
    · exact hm1
    · exact hm2
    · exact hm3
    · exact hm4

theorem encode_base_str_mem {alpha : Str} {v : Int} {c : Char}
    (hc : encode_base_str alpha v = some c) : c ∈ alpha := by
  rw [encode_base_str] at hc
  split at hc
  · obtain ⟨hl, he⟩ := List.getElem?_eq_some_iff.mp hc
    exact he ▸ List.getElem_mem hl
  · exact absurd hc (by simp)

theorem grid4_eq_some {e1 e2 e3 e4 : Option Char} {s : Str}
    (h : grid4 e1 e2 e3 e4 = some s) :
    ∃ c1 c2 c3 c4, e1 = some c1 ∧ e2 = some c2 ∧ e3 = some c3 ∧ e4 = some c4 ∧
      s = [c1, c2, c3, c4] := by
  cases e1 <;> cases e2 <;> cases e3 <;> cases e4 <;>
    first
      | exact absurd h (fun hh => Option.noConfusion hh)
      | exact ⟨_, _, _, _, rfl, rfl, rfl, rfl, (Option.some_inj.mp h).symm⟩

theorem b32_length : BASE_B32_CAPS.length = 32 := rfl

theorem b10_length : BASE_B10.length = 10 := rfl

theorem b32_valid : valid_alphabet BASE_B32_CAPS := by
  constructor <;> decide

theorem b10_valid : valid_alphabet BASE_B10 := by
  constructor <;> decide

theorem b10_no_hyphen : '-' ∉ BASE_B10 := by decide

theorem encode_grid_b32_147_m20 :
    encode_grid BASE_B32_CAPS 147 (-20) = some ['X', '4', 'E', 'G'] := by
  have h1 : lon_major BASE_B32_CAPS 147 = 29 := by
    unfold lon_major LON_SLICE_SIZE
    rw [b32_length]
    norm_num
  have h2 : lon_sub BASE_B32_CAPS 147 = 2 := by
    unfold lon_sub LON_SLICE_SIZE pyMod
    rw [b32_length]
    norm_num
  have h3 : lat_major BASE_B32_CAPS (-20) = 12 := by
    unfold lat_major LAT_SLICE_SIZE
    rw [b32_length]
    norm_num
  have h4 : lat_sub BASE_B32_CAPS (-20) = 14 := by
    unfold lat_sub LAT_SLICE_SIZE pyMod
    rw [b32_length]
    norm_num
  rw [encode_grid, h1, h2, h3, h4]
  rfl

theorem encode_grid_b10_147_m20 :
    encode_grid BASE_B10 147 (-20) = some ['9', '0', '3', '8'] := by
  have h1 : lon_major BASE_B10 147 = 9 := by
    unfold lon_major LON_SLICE_SIZE
    rw [b10_length]
    norm_num
  have h2 : lon_sub BASE_B10 147 = 0 := by
    unfold lon_sub LON_SLICE_SIZE pyMod
    rw [b10_length]
    norm_num
  have h3 : lat_major BASE_B10 (-20) = 3 := by
    unfold lat_major LAT_SLICE_SIZE
    rw [b10_length]
    norm_num
  have h4 : lat_sub BASE_B10 (-20) = 8 := by
    unfold lat_sub LAT_SLICE_SIZE pyMod
    rw [b10_length]
    norm_num
  rw [encode_grid, h1, h2, h3, h4]
  rfl

theorem encode_grid_b10_100_10 :
    encode_grid BASE_B10 100 10 = some ['7', '7', '5', '5'] := by
  have h1 : lon_major BASE_B10 100 = 7 := by
    unfold lon_major LON_SLICE_SIZE
    rw [b10_length]
    norm_num
  have h2 : lon_sub BASE_B10 100 = 7 := by
    unfold lon_sub LON_SLICE_SIZE pyMod
    rw [b10_length]
    norm_num
  have h3 : lat_major BASE_B10 10 = 5 := by
    unfold lat_major LAT_SLICE_SIZE
    rw [b10_length]
    norm_num
  have h4 : lat_sub BASE_B10 10 = 5 := by
    unfold lat_sub LAT_SLICE_SIZE pyMod
    rw [b10_length]
    norm_num
  rw [encode_grid, h1, h2, h3, h4]
  rfl

theorem encode_grid_parts {alpha : Str} {lon lat : ℚ} {s : Str}
    (h : encode_grid alpha lon lat = some s) : s.length = 4 ∧ ∀ c ∈ s, c ∈ alpha := by
  rw [encode_grid] at h
  obtain ⟨c1, c2, c3, c4, h1, h2, h3, h4, rfl⟩ := grid4_eq_some h
  refine ⟨rfl, ?_⟩
  intro c hc
  simp only [List.mem_cons, List.not_mem_nil, or_false] at hc
  rcases hc with rfl | rfl | rfl | rfl
  · exact encode_base_str_mem h1
  · exact encode_base_str_mem h2
  · exact encode_base_str_mem h3
  · exact encode_base_str_mem h4

/-! ### The collision-retry loop terminates on a free counter -/

theorem find_free_counter_ge (alpha : Str) (pad : Nat) (occ : Finset Str) :
    ∀ (fuel c : Nat), c ≤ find_free_counter alpha pad occ fuel c := by
  intro fuel
  induction fuel with
  | zero => intro c; exact le_refl c
  | succ fuel ih =>
    intro c
    simp only [find_free_counter]
    split
    · exact le_trans (Nat.le_succ c) (ih (c + 1))
    · exact le_refl c

/-- The occupied countercodes that are encodings of some counter at least
`c`; these are the only elements of `occ` the retry loop can still hit. -/
def occ_from (alpha : Str) (pad c : Nat) (occ : Finset Str) : Finset Str :=
  occ.filter (fun e => e = encode_counter alpha ((decode_counter alpha e).getD 0) pad ∧
    c ≤ (decode_counter alpha e).getD 0)

theorem occ_from_card_le (alpha : Str) (pad c : Nat) (occ : Finset Str) :
    (occ_from alpha pad c occ).card ≤ occ.card :=
  Finset.card_filter_le occ _

theorem mem_occ_from {alpha : Str} (hv : valid_alphabet alpha) {pad c : Nat} {occ : Finset Str}
    (h : encode_counter alpha c pad ∈ occ) :
    encode_counter alpha c pad ∈ occ_from alpha pad c occ := by
  rw [occ_from, Finset.mem_filter]
  rw [decode_encode_counter hv]
  simp only [Option.getD_some]
  exact ⟨h, by simp, by simp⟩

theorem not_mem_occ_from_succ {alpha : Str} (hv : valid_alphabet alpha) {pad c : Nat}
    {occ : Finset Str} : encode_counter alpha c pad ∉ occ_from alpha pad (c + 1) occ := by
  intro hmem
  rw [occ_from, Finset.mem_filter] at hmem
  obtain ⟨-, -, hle⟩ := hmem
  rw [decode_encode_counter hv] at hle
  simp only [Option.getD_some] at hle
  omega

theorem occ_from_mono (alpha : Str) (pad c : Nat) (occ : Finset Str) :
    occ_from alpha pad (c + 1) occ ⊆ occ_from alpha pad c occ := by
  intro e he
  rw [occ_from, Finset.mem_filter] at he ⊢
  exact ⟨he.1, he.2.1, Nat.le_of_succ_le he.2.2⟩

theorem find_free_counter_spec {alpha : Str} (hv : valid_alphabet alpha) (pad : Nat)
    (occ : Finset Str) :
    ∀ (fuel c : Nat), (occ_from alpha pad c occ).card < fuel →
      encode_counter alpha (find_free_counter alpha pad occ fuel c) pad ∉ occ := by
  intro fuel
  induction fuel with
  | zero => intro c h; omega
  | succ fuel ih =>
    intro c h
    simp only [find_free_counter]
    split
    · rename_i hin
      apply ih (c + 1)
      have hss : occ_from alpha pad (c + 1) occ ⊂ occ_from alpha pad c occ := by
        rw [Finset.ssubset_iff_of_subset (occ_from_mono alpha pad c occ)]
        exact ⟨encode_counter alpha c pad, mem_occ_from hv hin, not_mem_occ_from_succ hv⟩
      have := Finset.card_lt_card hss
      omega
    · rename_i hnin
      exact hnin

theorem chosen_ge (alpha pfx : Str) (pad : Nat) (g : Str) (st : AllocState) :
    st.count pfx g ≤ chosen alpha pfx pad g st :=
  find_free_counter_ge alpha pad _ _ _

theorem chosen_not_occupied {alpha : Str} (hv : valid_alphabet alpha) (pfx : Str) (pad : Nat)
    (g : Str) (st : AllocState) :
    encode_counter alpha (chosen alpha pfx pad g st) pad ∉ st.ids pfx g := by
  apply find_free_counter_spec hv
  have := occ_from_card_le alpha pad (st.count pfx g) (st.ids pfx g)
  omega

/-! ### Invariants of the per-group assignment loop -/

theorem assign_step_ids (alpha pfx : Str) (pad : Nat) (g : Str)
    (acc : AllocState × List (Nat × Nat)) (it : Nat × Feature) :
    (assign_step alpha pfx pad g acc it).1.ids = acc.1.ids := by
  unfold assign_step
  split <;> rfl

theorem foldl_assign_ids (alpha pfx : Str) (pad : Nat) (g : Str) :
    ∀ (group : List (Nat × Feature)) (acc : AllocState × List (Nat × Nat)),
      (group.foldl (assign_step alpha pfx pad g) acc).1.ids = acc.1.ids := by
  intro group
  induction group with
  | nil => intro acc; rfl
  | cons it group ih =>
    intro acc
    rw [List.foldl_cons]
    rw [ih (assign_step alpha pfx pad g acc it)]
    exact assign_step_ids alpha pfx pad g acc it

theorem assign_group_ids (alpha pfx : Str) (pad : Nat) (g : Str) (st : AllocState)
    (group : List (Nat × Feature)) :
    (assign_group alpha pfx pad g st group).1.ids = st.ids :=
  foldl_assign_ids alpha pfx pad g group (st, [])

theorem foldl_assign_pairwise (alpha pfx : Str) (pad : Nat) (g : Str) :
    ∀ (group : List (Nat × Feature)) (acc : AllocState × List (Nat × Nat)),
      (acc.2.map (fun x => x.2)).Pairwise (· < ·) →
      (∀ x ∈ acc.2, x.2 < acc.1.count pfx g) →
      ((group.foldl (assign_step alpha pfx pad g) acc).2.map (fun x => x.2)).Pairwise (· < ·) ∧
        ∀ x ∈ (group.foldl (assign_step alpha pfx pad g) acc).2,
          x.2 < (group.foldl (assign_step alpha pfx pad g) acc).1.count pfx g := by
  intro group
  induction group with
  | nil => intro acc h1 h2; exact ⟨h1, h2⟩
  | cons it group ih =>
    intro acc h1 h2
    rw [List.foldl_cons]
    apply ih
    · unfold assign_step
      cases hr : it.2.reefID with
      | some _ => exact h1
      | none =>
        simp only [List.map_append, List.map_cons, List.map_nil]
        rw [List.pairwise_append]
        refine ⟨h1, by simp, ?_⟩
        intro a ha b hb
        simp only [List.mem_singleton] at hb
        subst hb
        rcases List.mem_map.1 ha with ⟨x, hx, rfl⟩
        have hxc := h2 x hx
        have hge := chosen_ge alpha pfx pad g acc.1
        omega
    · unfold assign_step
      cases hr : it.2.reefID with
      | some _ => exact h2
      | none =>
        intro x hx
        simp [setCount]
        rcases List.mem_append.1 hx with hx1 | hx1
        · have hxc := h2 x hx1
          have hge := chosen_ge alpha pfx pad g acc.1
          omega
        · simp only [List.mem_singleton] at hx1
          subst hx1
          omega

/-- The counters committed within one grid-cell group are strictly
increasing in commit order. -/
theorem assign_group_counters_mono (alpha pfx : Str) (pad : Nat) (g : Str) (st : AllocState)
    (group : List (Nat × Feature)) :
    ((assign_group alpha pfx pad g st group).2.map (fun x => x.2)).Pairwise (· < ·) :=
  (foldl_assign_pairwise alpha pfx pad g group (st, []) (by simp) (by simp)).1

/-! ### The existing-identifier pass aborts on malformed identifiers -/

theorem register_existing_error_of_malformed (alpha : Str) {rid : Str}
    (h : (split_on_hyphen rid).length ≠ 3) (st : AllocState) :
    register_existing alpha st rid = Except.error rid := by
  unfold register_existing
  split
  · rename_i p g c hs
    rw [hs] at h
    simp at h
  · rfl

theorem foldlM_init_error {alpha : Str} {f0 : Feature} {rid : Str}
    (hbad : ∀ st, register_existing alpha st rid = Except.error rid)
    (hr : f0.reefID = some rid) :
    ∀ (features : List Feature), f0 ∈ features → ∀ st : AllocState,
      features.foldlM (init_step alpha) st = Except.error rid ∨
        ∃ e, features.foldlM (init_step alpha) st = Except.error e := by
  intro features
  induction features with
  | nil => intro h; exact absurd h (List.not_mem_nil f0)
  | cons x xs ih =>
    intro hmem st
    rcases List.mem_cons.1 hmem with rfl | hmem2
    · left
      show init_step alpha st f0 >>= _ = _
      simp only [init_step, hr, hbad st]
      rfl
    · cases hstep : init_step alpha st x with
      | error e =>
        right
        refine ⟨e, ?_⟩
        show init_step alpha st x >>= _ = _
        rw [hstep]
        rfl
      | ok st2 =>
        have h2 := ih hmem2 st2
        rcases h2 with h2 | ⟨e, h2⟩
        · left
          show init_step alpha st x >>= _ = _
          rw [hstep]
          exact h2
        · right
          refine ⟨e, ?_⟩
          show init_step alpha st x >>= _ = _
          rw [hstep]
          exact h2

/-- If any row carries an identifier that does not split into exactly three
hyphen-separated parts, the existing-identifier pass raises. -/
theorem init_state_error_of_malformed {alpha : Str} {features : List Feature} {f0 : Feature}
    {rid : Str} (hf : f0 ∈ features) (hr : f0.reefID = some rid)
    (hbad : (split_on_hyphen rid).length ≠ 3) :
    ∃ e, init_state alpha features = Except.error e := by
  rcases foldlM_init_error (register_existing_error_of_malformed alpha hbad) hr
      features hf emptyState with h1 | h1
  · exact ⟨rid, h1⟩
  · exact h1

/-- An `Except.error` from the existing-identifier pass aborts the whole
run with that error. -/
theorem process_shapefile_error_of_init {alpha pfx : Str} {pad : Nat} {input : List Feature}
    {e : Str} (h : init_state alpha input = Except.error e) :
    process_shapefile alpha pfx pad input = Except.error e := by
  unfold process_shapefile
  rw [h]
  rfl

/-! ### Decomposition of a successful run -/

theorem process_shapefile_ok {alpha pfx : Str} {pad : Nat} {input out : List Feature}
    (h : process_shapefile alpha pfx pad input = Except.ok out) :
    ∃ st0 codes, init_state alpha input = Except.ok st0 ∧
      grid_codes alpha input = Except.ok codes ∧
      out = apply_assignments input (assign_all alpha pfx pad st0
        (input.enum.zipWith (fun p g => (p.1, p.2, g)) codes)) := by
  unfold process_shapefile at h
  cases hinit : init_state alpha input with
  | error e =>
    rw [hinit] at h
    exact absurd h (by exact fun hh => Except.noConfusion hh)
  | ok st0 =>
    rw [hinit] at h
    cases hcodes : grid_codes alpha input with
    | error e =>
      rw [hcodes] at h
      exact absurd h (by exact fun hh => Except.noConfusion hh)
    | ok codes =>
      rw [hcodes] at h
      refine ⟨st0, codes, rfl, rfl, ?_⟩
      have := Except.ok.inj h
      exact this.symm

/-! ### Soundness of the assignment pass: every assignment targets an
unlabelled row and uses a countercode free in the occupied set -/

theorem foldl_assign_sound {alpha : Str} (hv : valid_alphabet alpha) (pfx : Str) (pad : Nat)
    (g : Str) :
    ∀ (group : List (Nat × Feature)) (st : AllocState) (l : List (Nat × Nat)),
      ∀ x ∈ (group.foldl (assign_step alpha pfx pad g) (st, l)).2,
        x ∈ l ∨ ((∃ it ∈ group, it.2.reefID = none ∧ x.1 = it.1) ∧
          encode_counter alpha x.2 pad ∉ st.ids pfx g) := by
  intro group
  induction group with
  | nil => intro st l x hx; exact Or.inl hx
  | cons it group ih =>
    intro st l x hx
    rw [List.foldl_cons] at hx
    cases hr : it.2.reefID with
    | some rid =>
      have hstep : assign_step alpha pfx pad g (st, l) it = (st, l) := by
        unfold assign_step
        rw [hr]
      rw [hstep] at hx
      rcases ih st l x hx with h | ⟨⟨it2, h2, h3⟩, h4⟩
      · exact Or.inl h
      · exact Or.inr ⟨⟨it2, List.mem_cons_of_mem it h2, h3⟩, h4⟩
    | none =>
      have hstep : assign_step alpha pfx pad g (st, l) it =
          (⟨setCount st.count pfx g (chosen alpha pfx pad g st + 1), st.ids⟩,
            l ++ [(it.1, chosen alpha pfx pad g st)]) := by
        unfold assign_step
        rw [hr]
      rw [hstep] at hx
      rcases ih _ _ x hx with h | ⟨⟨it2, h2, h3⟩, h4⟩
      · rcases List.mem_append.1 h with h | h
        · exact Or.inl h
        · simp only [List.mem_singleton] at h
          subst h
          exact Or.inr ⟨⟨it, List.mem_cons_self it group, hr, rfl⟩,
            chosen_not_occupied hv pfx pad g st⟩
      · exact Or.inr ⟨⟨it2, List.mem_cons_of_mem it h2, h3⟩, h4⟩

theorem assign_group_sound {alpha : Str} (hv : valid_alphabet alpha) (pfx : Str) (pad : Nat)
    (g : Str) (st : AllocState) (group : List (Nat × Feature)) :
    ∀ x ∈ (assign_group alpha pfx pad g st group).2,
      (∃ it ∈ group, it.2.reefID = none ∧ x.1 = it.1) ∧
        encode_counter alpha x.2 pad ∉ st.ids pfx g := by
  intro x hx
  rcases foldl_assign_sound hv pfx pad g group st [] x hx with h | h
  · exact absurd h (List.not_mem_nil x)
  · exact h

theorem group_step_ids (alpha pfx : Str) (pad : Nat) (items : List (Nat × Feature × Str))
    (acc : AllocState × List (Nat × Str)) (g : Str) :
    (group_step alpha pfx pad items acc g).1.ids = acc.1.ids :=
  assign_group_ids alpha pfx pad g acc.1 (sort_group (group_features items g))

theorem foldl_groups_sound {alpha : Str} (hv : valid_alphabet alpha) (pfx : Str) (pad : Nat)
    (items : List (Nat × Feature × Str)) :
    ∀ (gs : List Str) (st : AllocState) (l : List (Nat × Str)),
      ∀ x ∈ (gs.foldl (group_step alpha pfx pad items) (st, l)).2,
        x ∈ l ∨ ∃ g ∈ gs, ∃ it ∈ group_features items g, it.2.reefID = none ∧ x.1 = it.1 ∧
          ∃ c, x.2 = reef_id pfx g (encode_counter alpha c pad) ∧
            encode_counter alpha c pad ∉ st.ids pfx g := by
  intro gs
  induction gs with
  | nil => intro st l x hx; exact Or.inl hx
  | cons g gs ih =>
    intro st l x hx
    rw [List.foldl_cons] at hx
    have hids := assign_group_ids alpha pfx pad g st (sort_group (group_features items g))
    have hpair : group_step alpha pfx pad items (st, l) g =
        ((assign_group alpha pfx pad g st (sort_group (group_features items g))).1,
          l ++ (assign_group alpha pfx pad g st
            (sort_group (group_features items g))).2.map
              (fun ic => (ic.1, reef_id pfx g (encode_counter alpha ic.2 pad)))) := rfl
    rw [hpair] at hx
    rcases ih _ _ x hx with h | ⟨g2, hg2, it, hit, hnone, hxi, c, hxc, hnotocc⟩
    · rcases List.mem_append.1 h with h | h
      · exact Or.inl h
      · rcases List.mem_map.1 h with ⟨ic, hic, rfl⟩
        obtain ⟨⟨it2, hit2, hnone2, hidx⟩, hocc⟩ :=
          assign_group_sound hv pfx pad g st (sort_group (group_features items g)) ic hic
        refine Or.inr ⟨g, List.mem_cons_self g gs, it2,
          (List.mem_insertionSort _).mp hit2, hnone2, hidx, ic.2, rfl, hocc⟩
    · rw [hids] at hnotocc
      exact Or.inr ⟨g2, List.mem_cons_of_mem g hg2, it, hit, hnone, hxi, c, hxc, hnotocc⟩

theorem assign_all_sound {alpha : Str} (hv : valid_alphabet alpha) (pfx : Str) (pad : Nat)
    (st0 : AllocState) (items : List (Nat × Feature × Str)) :
    ∀ x ∈ assign_all alpha pfx pad st0 items,
      ∃ g ∈ unique_codes (items.map (fun it => it.2.2)),
        ∃ it ∈ group_features items g, it.2.reefID = none ∧ x.1 = it.1 ∧
          ∃ c, x.2 = reef_id pfx g (encode_counter alpha c pad) ∧
            encode_counter alpha c pad ∉ st0.ids pfx g := by
  intro x hx
  rcases foldl_groups_sound hv pfx pad items _ st0 [] x hx with h | h
  · exact absurd h (List.not_mem_nil x)
  · exact h

/-! ### Wiring of rows, grid codes and groups -/

theorem mem_group_features {items : List (Nat × Feature × Str)} {g : Str} {it : Nat × Feature}
    (h : it ∈ group_features items g) : (it.1, it.2, g) ∈ items := by
  unfold group_features at h
  rcases List.mem_map.1 h with ⟨it3, hit3, heq⟩
  have hmem := List.mem_filter.1 hit3
  have hg : it3.2.2 = g := by simpa using hmem.2
  have : (it.1, it.2, g) = it3 := by
    rw [← heq, ← hg]
  rw [this]
  exact hmem.1

theorem mem_items_spec {input : List Feature} {codes : List Str} {it : Nat × Feature × Str}
    (hit : it ∈ input.enum.zipWith (fun p g => (p.1, p.2, g)) codes) :
    input[it.1]? = some it.2.1 ∧ codes[it.1]? = some it.2.2 := by
  rcases List.mem_iff_getElem?.1 hit with ⟨k, hk⟩
  rw [List.getElem?_zipWith] at hk
  cases he : (input.enum)[k]? with
  | none => rw [he] at hk; simp at hk
  | some p =>
    cases hc : codes[k]? with
    | none => rw [he, hc] at hk; simp at hk
    | some gcode =>
      rw [he, hc] at hk
      simp only [Option.some_inj] at hk
      rw [List.getElem?_enum] at he
      cases hi : input[k]? with
      | none => rw [hi] at he; simp at he
      | some f =>
        rw [hi] at he
        simp only [Option.map_some', Option.some_inj] at he
        rw [← hk, ← he]
        exact ⟨hi, hc⟩

/-! ### The output collection row by row -/

theorem apply_assignments_length (features : List Feature) (asg : List (Nat × Str)) :
    (apply_assignments features asg).length = features.length := by
  unfold apply_assignments
  rw [List.length_map, List.enum_length]

theorem apply_assignments_getElem (features : List Feature) (asg : List (Nat × Str)) (i : Nat)
    (hi : i < features.length) :
    (apply_assignments features asg)[i]? =
      some (match lookup_assignment asg i with
        | some rid => { features[i] with reefID := some rid }
        | none => features[i]) := by
  unfold apply_assignments
  rw [List.getElem?_map, List.getElem?_enum, List.getElem?_eq_getElem hi]
  rfl

theorem lookup_assignment_eq_none {asg : List (Nat × Str)} {i : Nat}
    (h : ∀ x ∈ asg, x.1 ≠ i) : lookup_assignment asg i = none := by
  unfold lookup_assignment
  rw [List.find?_eq_none.mpr]
  · rfl
  · intro x hx
    simp [h x hx]

/-- A labelled row of the input passes through a successful run untouched:
the whole feature, its identifier included, reappears at the same row of the
output. -/
theorem run_preserves_existing {alpha : Str} (hv : valid_alphabet alpha) {pfx : Str}
    {pad : Nat} {input out : List Feature}
    (h : process_shapefile alpha pfx pad input = Except.ok out) :
    ∀ (i : Nat) (f : Feature), input[i]? = some f → f.reefID.isSome → out[i]? = some f := by
  obtain ⟨st0, codes, hinit, hcodes, hout⟩ := process_shapefile_ok h
  intro i f hif hsome
  obtain ⟨hi, hfi⟩ := List.getElem?_eq_some_iff.mp hif
  subst hout
  rw [apply_assignments_getElem _ _ i hi]
  have hlook : lookup_assignment (assign_all alpha pfx pad st0
      (input.enum.zipWith (fun p g => (p.1, p.2, g)) codes)) i = none := by
    apply lookup_assignment_eq_none
    intro x hx hxi
    obtain ⟨g, hg, it, hit, hnone, hxit, -⟩ := assign_all_sound hv pfx pad st0 _ x hx
    have hspec : input[it.1]? = some it.2 := (mem_items_spec (mem_group_features hit)).1
    rw [← hxit, hxi, hif] at hspec
    have hf2 : f = it.2 := Option.some_inj.mp hspec
    rw [hf2, hnone] at hsome
    simp at hsome
  rw [hlook, hfi]

/-! ### Grid codes of a successful run -/

theorem grid_codes_spec {alpha : Str} :
    ∀ (input : List Feature) (codes : List Str),
      grid_codes alpha input = Except.ok codes →
      codes.length = input.length ∧
        ∀ (k : Nat) (f : Feature), input[k]? = some f →
          ∃ c, codes[k]? = some c ∧ encode_grid alpha f.lon f.lat = some c := by
  intro input
  unfold grid_codes
  induction input with
  | nil =>
    intro codes h
    have : codes = [] := by
      simp only [List.mapM_nil] at h
      exact (Except.ok.inj h).symm
    subst this
    exact ⟨rfl, fun k f hf => by simp at hf⟩
  | cons f0 input ih =>
    intro codes h
    rw [List.mapM_cons] at h
    cases hc0 : code_of alpha f0 with
    | error e =>
      rw [hc0] at h
      exact absurd h (fun hh => Except.noConfusion hh)
    | ok c0 =>
      rw [hc0] at h
      cases hrest : input.mapM (code_of alpha) with
      | error e =>
        rw [hrest] at h
        exact absurd h (fun hh => Except.noConfusion hh)
      | ok cs =>
        rw [hrest] at h
        have hcodes : codes = c0 :: cs := (Except.ok.inj h).symm
        subst hcodes
        obtain ⟨hlen, hspec⟩ := ih cs hrest
        refine ⟨by simp [hlen], ?_⟩
        intro k f hf
        cases k with
        | zero =>
          simp only [List.getElem?_cons_zero, Option.some_inj] at hf
          rw [← hf]
          refine ⟨c0, by simp, ?_⟩
          unfold code_of at hc0
          cases hg : encode_grid alpha f0.lon f0.lat with
          | none => rw [hg] at hc0; exact absurd hc0 (fun hh => Except.noConfusion hh)
          | some g =>
            rw [hg] at hc0
            rw [Except.ok.inj hc0]
        | succ k =>
          simp only [List.getElem?_cons_succ] at hf ⊢
          exact hspec k f hf

/-! ### `unique_codes` is a duplicate-free enumeration of the codes -/

theorem foldl_unique_mem (l : List Str) :
    ∀ (acc : List Str) (x : Str),
      x ∈ l.foldl (fun acc g => if g ∈ acc then acc else acc ++ [g]) acc ↔
        x ∈ acc ∨ x ∈ l := by
  induction l with
  | nil => intro acc x; simp
  | cons g l ih =>
    intro acc x
    rw [List.foldl_cons]
    by_cases hg : g ∈ acc
    · rw [if_pos hg, ih]
      constructor
      · rintro (h | h)
        · exact Or.inl h
        · exact Or.inr (List.mem_cons_of_mem g h)
      · rintro (h | h)
        · exact Or.inl h
        · rcases List.mem_cons.1 h with rfl | h
          · exact Or.inl hg
          · exact Or.inr h
    · rw [if_neg hg, ih]
      constructor
      · rintro (h | h)
        · rcases List.mem_append.1 h with h | h
          · exact Or.inl h
          · simp only [List.mem_singleton] at h
            subst h
            exact Or.inr (List.mem_cons_self x l)
        · exact Or.inr (List.mem_cons_of_mem g h)
      · rintro (h | h)
        · exact Or.inl (List.mem_append_left _ h)
        · rcases List.mem_cons.1 h with rfl | h
          · exact Or.inl (List.mem_append_right _ (by simp))
          · exact Or.inr h

theorem mem_unique_codes_iff {l : List Str} {g : Str} : g ∈ unique_codes l ↔ g ∈ l := by
  unfold unique_codes
  rw [foldl_unique_mem]
  simp

theorem foldl_unique_nodup (l : List Str) :
    ∀ (acc : List Str), acc.Nodup →
      (l.foldl (fun acc g => if g ∈ acc then acc else acc ++ [g]) acc).Nodup := by
  induction l with
  | nil => intro acc h; exact h
  | cons g l ih =>
    intro acc h
    rw [List.foldl_cons]
    by_cases hg : g ∈ acc
    · rw [if_pos hg]
      exact ih acc h
    · rw [if_neg hg]
      apply ih
      rw [List.nodup_append]
      exact ⟨h, List.nodup_singleton g, by simpa using hg⟩

theorem unique_codes_nodup (l : List Str) : (unique_codes l).Nodup :=
  foldl_unique_nodup l [] List.nodup_nil

/-! ### Distinctness of full identifier strings -/

theorem reef_id_eq_iff {pfx g1 g2 e1 e2 : Str} (hlen : g1.length = g2.length)
    (h : reef_id pfx g1 e1 = reef_id pfx g2 e2) : g1 = g2 ∧ e1 = e2 := by
  unfold reef_id at h
  have h2 : '-' :: (g1 ++ '-' :: e1) = '-' :: (g2 ++ '-' :: e2) :=
    List.append_cancel_left h
  have h3 : g1 ++ '-' :: e1 = g2 ++ '-' :: e2 := (List.cons.inj h2).2
  obtain ⟨hg, he⟩ := List.append_inj h3 hlen
  exact ⟨hg, (List.cons.inj he).2⟩

/-- A newly built identifier can never coincide with a well-formed existing
identifier whose countercode is registered as occupied, when the new
countercode avoids the occupied set of its own (prefix, gridcode) pair. -/
theorem new_id_ne_registered {alpha : Str} {pfx g : Str} {c : Nat} {pad : Nat} {y a b e0 : Str}
    (ids : Str → Str → Finset Str)
    (hy : split_on_hyphen y = [a, b, e0]) (hreg : e0 ∈ ids a b)
    (hfree : encode_counter alpha c pad ∉ ids pfx g) :
    reef_id pfx g (encode_counter alpha c pad) ≠ y := by
  intro heq
  have hcy : y.count '-' = 2 := by
    have := split_on_hyphen_length y
    rw [hy] at this
    simp at this
    omega
  have hcx : (reef_id pfx g (encode_counter alpha c pad)).count '-' =
      pfx.count '-' + g.count '-' + (encode_counter alpha c pad).count '-' + 2 :=
    count_reef_id _ _ _
  rw [heq, hcy] at hcx
  have hpfx : '-' ∉ pfx := by
    rw [← List.count_eq_zero (a := '-')]
    omega
  have hg : '-' ∉ g := by
    rw [← List.count_eq_zero (a := '-')]
    omega
  have he : '-' ∉ encode_counter alpha c pad := by
    rw [← List.count_eq_zero (a := '-')]
    omega
  have hsplit := split_on_hyphen_reef_id hpfx hg he
  rw [heq, hy] at hsplit
  simp only [List.cons.injEq, and_true] at hsplit
  obtain ⟨ha, hb, he0⟩ := hsplit
  rw [ha, hb, he0] at hreg
  exact hfree hreg

/-! ### Looking up assignments -/

/-! ### Distinct identifiers among new assignments -/

theorem foldl_groups_pairwise {alpha : Str} (hv : valid_alphabet alpha) (pfx : Str) (pad : Nat)
    (items : List (Nat × Feature × Str)) :
    ∀ (gs : List Str) (st : AllocState) (l : List (Nat × Str)),
      gs.Nodup → (∀ g ∈ gs, g.length = 4) →
      l.Pairwise (fun a b => a.2 ≠ b.2) →
      (∀ x ∈ l, ∃ g c, x.2 = reef_id pfx g (encode_counter alpha c pad) ∧ g.length = 4 ∧
        g ∉ gs) →
      (gs.foldl (group_step alpha pfx pad items) (st, l)).2.Pairwise
        (fun a b => a.2 ≠ b.2) := by
  intro gs
  induction gs with
  | nil => intro st l hnd hlen4 hpw hform; exact hpw
  | cons g gs ih =>
    intro st l hnd hlen4 hpw hform
    rw [List.foldl_cons]
    have hstep : group_step alpha pfx pad items (st, l) g =
        ((assign_group alpha pfx pad g st (sort_group (group_features items g))).1,
          l ++ (assign_group alpha pfx pad g st
            (sort_group (group_features items g))).2.map
              (fun ic => (ic.1, reef_id pfx g (encode_counter alpha ic.2 pad)))) := rfl
    rw [hstep]
    apply ih
    · exact (List.nodup_cons.1 hnd).2
    · intro g2 hg2
      exact hlen4 g2 (List.mem_cons_of_mem g hg2)
    · rw [List.pairwise_append]
      refine ⟨hpw, ?_, ?_⟩
      · have hmono := assign_group_counters_mono alpha pfx pad g st
          (sort_group (group_features items g))
        rw [List.pairwise_map] at hmono ⊢
        refine hmono.imp ?_
        intro a b hab heq
        obtain ⟨-, he⟩ := reef_id_eq_iff rfl heq
        exact absurd (encode_counter_inj hv he) (by omega)
      · intro a ha b hb
        rcases List.mem_map.1 hb with ⟨ic, hic, rfl⟩
        obtain ⟨g2, c2, hform2, hlen2, hnotin⟩ := hform a ha
        rw [hform2]
        intro heq
        have hg4 : g2.length = g.length := by
          rw [hlen2, hlen4 g (List.mem_cons_self g gs)]
        obtain ⟨hgg, -⟩ := reef_id_eq_iff hg4 heq
        exact hnotin (hgg ▸ List.mem_cons_self g gs)
    · intro x hx
      rcases List.mem_append.1 hx with hx | hx
      · obtain ⟨g2, c2, h1, h2, h3⟩ := hform x hx
        exact ⟨g2, c2, h1, h2, fun hm => h3 (List.mem_cons_of_mem g hm)⟩
      · rcases List.mem_map.1 hx with ⟨ic, hic, rfl⟩
        exact ⟨g, ic.2, rfl, hlen4 g (List.mem_cons_self g gs), (List.nodup_cons.1 hnd).1⟩

theorem assign_all_pairwise {alpha : Str} (hv : valid_alphabet alpha) (pfx : Str) (pad : Nat)
    (st0 : AllocState) (items : List (Nat × Feature × Str))
    (hlen4 : ∀ it ∈ items, it.2.2.length = 4) :
    (assign_all alpha pfx pad st0 items).Pairwise (fun a b => a.2 ≠ b.2) := by
  unfold assign_all
  apply foldl_groups_pairwise hv pfx pad items _ st0 [] (unique_codes_nodup _) ?_ (by simp)
    (by simp)
  intro g hg
  rw [mem_unique_codes_iff] at hg
  rcases List.mem_map.1 hg with ⟨it, hit, rfl⟩
  exact hlen4 it hit

theorem items_code_len4 {alpha : Str} {input : List Feature} {codes : List Str}
    (hcodes : grid_codes alpha input = Except.ok codes) :
    ∀ it ∈ input.enum.zipWith (fun p g => (p.1, p.2, g)) codes, (it.2.2 : Str).length = 4 := by
  intro it hit
  obtain ⟨hin, hcode⟩ := mem_items_spec hit
  obtain ⟨-, hspec⟩ := grid_codes_spec input codes hcodes
  rcases hspec it.1 it.2.1 hin with ⟨c, hc, henc⟩
  have hceq : c = it.2.2 := by
    rw [hc] at hcode
    exact Option.some_inj.mp hcode
  rw [← hceq]
  exact (encode_grid_parts henc).1

/-! ### `Nodup` of a `filterMap` as a pairwise condition -/

theorem nodup_filterMap_iff {α β : Type} (f : α → Option β) :
    ∀ {l : List α}, (l.filterMap f).Nodup ↔
      l.Pairwise (fun a b => ∀ x, f a = some x → ∀ y, f b = some y → x ≠ y) := by
  intro l
  induction l with
  | nil => simp
  | cons a l ih =>
    rw [List.filterMap_cons, List.pairwise_cons]
    cases hf : f a with
    | none =>
      rw [ih]
      constructor
      · intro h
        refine ⟨?_, h⟩
        intro b hb x hx
        exact absurd hx (by simp)
      · exact fun h => h.2
    | some x =>
      rw [List.nodup_cons, ih]
      constructor
      · rintro ⟨hnot, hp⟩
        refine ⟨?_, hp⟩
        intro b hb z hz y hy
        have hz2 : z = x := (Option.some_inj.mp hz).symm
        subst hz2
        intro hzy
        subst hzy
        exact hnot (List.mem_filterMap.2 ⟨b, hb, hy⟩)
      · rintro ⟨h1, hp⟩
        refine ⟨?_, hp⟩
        intro hmem
        rcases List.mem_filterMap.1 hmem with ⟨b, hb, hby⟩
        exact h1 b hb x rfl x hby rfl

/-! ### Registration of existing identifiers in the initial state -/

theorem mem_addId_of_mem {f : Str → Str → Finset Str} {p0 g0 e0 p g e : Str}
    (h : e ∈ f p g) : e ∈ addId f p0 g0 e0 p g := by
  unfold addId
  split
  · exact Finset.mem_insert_of_mem h
  · exact h

theorem mem_addId_self {f : Str → Str → Finset Str} {p0 g0 e0 : Str} :
    e0 ∈ addId f p0 g0 e0 p0 g0 := by
  unfold addId
  rw [if_pos ⟨rfl, rfl⟩]
  exact Finset.mem_insert_self e0 _

theorem register_existing_ids_mono {alpha : Str} {st st' : AllocState} {rid : Str}
    (h : register_existing alpha st rid = Except.ok st') :
    ∀ p g e, e ∈ st.ids p g → e ∈ st'.ids p g := by
  unfold register_existing at h
  split at h
  · rename_i p0 g0 c0 hs
    split at h
    · have hst : st' = ⟨setCount st.count p0 g0 (max (st.count p0 g0) (_ + 1)),
          addId st.ids p0 g0 c0⟩ := (Except.ok.inj h).symm
      subst hst
      intro p g e he
      exact mem_addId_of_mem he
    · exact absurd h (fun hh => Except.noConfusion hh)
  · exact absurd h (fun hh => Except.noConfusion hh)

theorem register_existing_registers {alpha : Str} {st st' : AllocState} {rid : Str}
    (h : register_existing alpha st rid = Except.ok st') :
    ∃ a b e, split_on_hyphen rid = [a, b, e] ∧ e ∈ st'.ids a b := by
  unfold register_existing at h
  split at h
  · rename_i a b e hs
    split at h
    · have hst : st' = ⟨setCount st.count a b (max (st.count a b) (_ + 1)),
          addId st.ids a b e⟩ := (Except.ok.inj h).symm
      subst hst
      exact ⟨a, b, e, hs, mem_addId_self⟩
    · exact absurd h (fun hh => Except.noConfusion hh)
  · exact absurd h (fun hh => Except.noConfusion hh)

theorem init_step_ids_mono {alpha : Str} {st st' : AllocState} {f : Feature}
    (h : init_step alpha st f = Except.ok st') :
    ∀ p g e, e ∈ st.ids p g → e ∈ st'.ids p g := by
  unfold init_step at h
  split at h
  · exact register_existing_ids_mono h
  · have : st = st' := Except.ok.inj h
    subst this
    intro p g e he
    exact he

theorem foldlM_init_ids_mono {alpha : Str} :
    ∀ (features : List Feature) (st st' : AllocState),
      features.foldlM (init_step alpha) st = Except.ok st' →
      ∀ p g e, e ∈ st.ids p g → e ∈ st'.ids p g := by
  intro features
  induction features with
  | nil =>
    intro st st' h
    have : st = st' := Except.ok.inj h
    subst this
    intro p g e he
    exact he
  | cons f0 features ih =>
    intro st st' h
    rw [List.foldlM_cons] at h
    cases hstep : init_step alpha st f0 with
    | error e0 =>
      rw [hstep] at h
      exact absurd h (fun hh => Except.noConfusion hh)
    | ok st2 =>
      rw [hstep] at h
      intro p g e he
      exact ih st2 st' h p g e (init_step_ids_mono hstep p g e he)

theorem init_state_registers {alpha : Str} :
    ∀ (features : List Feature) (st st' : AllocState),
      features.foldlM (init_step alpha) st = Except.ok st' →
      ∀ f ∈ features, ∀ rid, f.reefID = some rid →
        ∃ a b e, split_on_hyphen rid = [a, b, e] ∧ e ∈ st'.ids a b := by
  intro features
  induction features with
  | nil => intro st st' h f hf; exact absurd hf (List.not_mem_nil f)
  | cons f0 features ih =>
    intro st st' h f hf rid hrid
    rw [List.foldlM_cons] at h
    cases hstep : init_step alpha st f0 with
    | error e0 =>
      rw [hstep] at h
      exact absurd h (fun hh => Except.noConfusion hh)
    | ok st2 =>
      rw [hstep] at h
      rcases List.mem_cons.1 hf with rfl | hf2
      · unfold init_step at hstep
        rw [hrid] at hstep
        obtain ⟨a, b, e, hs, he⟩ := register_existing_registers hstep
        exact ⟨a, b, e, hs, foldlM_init_ids_mono features st2 st' h a b e he⟩
      · exact ih st2 st' h f hf2 rid hrid

theorem lookup_assignment_mem {asg : List (Nat × Str)} {i : Nat} {r : Str}
    (h : lookup_assignment asg i = some r) : (i, r) ∈ asg := by
  unfold lookup_assignment at h
  cases hf : asg.find? (fun a => decide (a.1 = i)) with
  | none => rw [hf] at h; simp at h
  | some a =>
    rw [hf] at h
    simp only [Option.map_some', Option.some_inj] at h
    have hm := List.mem_of_find?_eq_some hf
    have hp := List.find?_some hf
    have hi : a.1 = i := by simpa using hp
    have : a = (i, r) := by
      rw [← hi, ← h]
    rw [← this]
    exact hm

/-- Main uniqueness helper: a successful run whose input carries pairwise
distinct identifiers yields an output whose identifiers are pairwise
distinct. -/
theorem run_output_ids_nodup {alpha : Str} (hv : valid_alphabet alpha) {pfx : Str} {pad : Nat}
    {input out : List Feature}
    (h : process_shapefile alpha pfx pad input = Except.ok out)
    (hnd : (output_reef_ids input).Nodup) :
    (output_reef_ids out).Nodup := by
  obtain ⟨st0, codes, hinit, hcodes, hout⟩ := process_shapefile_ok h
  have hpw := assign_all_pairwise hv pfx pad st0
    (input.enum.zipWith (fun p g => (p.1, p.2, g)) codes) (items_code_len4 hcodes)
  have hfst : input.enum.Pairwise (fun p q => p.1 < q.1) := by
    have h1 : (input.enum.map Prod.fst).Pairwise (· < ·) := by
      rw [List.enum_map_fst]
      exact List.pairwise_lt_range _
    rwa [List.pairwise_map] at h1
  have hsnd : input.enum.Pairwise (fun p q => ∀ x, p.2.reefID = some x →
      ∀ y, q.2.reefID = some y → x ≠ y) := by
    have h2 := (nodup_filterMap_iff Feature.reefID).mp hnd
    have h3 : (input.enum.map Prod.snd).Pairwise (fun a b => ∀ x, a.reefID = some x →
        ∀ y, b.reefID = some y → x ≠ y) := by
      rw [List.enum_map_snd]
      exact h2
    rwa [List.pairwise_map] at h3
  have hpairs := List.pairwise_and_iff.mpr ⟨hfst, hsnd⟩
  subst hout
  unfold output_reef_ids apply_assignments
  rw [List.filterMap_map]
  rw [nodup_filterMap_iff]
  refine hpairs.imp_of_mem ?_
  intro p q hp hq hpq
  obtain ⟨hlt, hold⟩ := hpq
  have hne : p.1 ≠ q.1 := Nat.ne_of_lt hlt
  -- a row's contribution is its new assignment if any, else its old identifier
  have hrow : ∀ (r : Nat × Feature) (x : Str),
      (Feature.reefID ∘ fun p =>
        match lookup_assignment (assign_all alpha pfx pad st0
          (input.enum.zipWith (fun p g => (p.1, p.2, g)) codes)) p.1 with
        | some rid => { p.2 with reefID := some rid }
        | none => p.2) r = some x →
      (lookup_assignment (assign_all alpha pfx pad st0
        (input.enum.zipWith (fun p g => (p.1, p.2, g)) codes)) r.1 = some x ∨
       (lookup_assignment (assign_all alpha pfx pad st0
        (input.enum.zipWith (fun p g => (p.1, p.2, g)) codes)) r.1 = none ∧
        r.2.reefID = some x)) := by
    intro r x hx
    cases hl : lookup_assignment (assign_all alpha pfx pad st0
        (input.enum.zipWith (fun p g => (p.1, p.2, g)) codes)) r.1 with
    | some rid =>
      left
      simp only [Function.comp_apply] at hx
      rw [hl] at hx
      simpa using hx
    | none =>
      right
      refine ⟨rfl, ?_⟩
      simp only [Function.comp_apply] at hx
      rw [hl] at hx
      simpa using hx
  -- facts about any row that keeps an old identifier: it is registered
  have hreg : ∀ (r : Nat × Feature), r ∈ input.enum → ∀ y, r.2.reefID = some y →
      ∃ a b e, split_on_hyphen y = [a, b, e] ∧ e ∈ st0.ids a b := by
    intro r hr y hy
    have hmem : r.2 ∈ input := by
      have hg := List.mem_enum_iff_getElem?.mp hr
      obtain ⟨hl, he⟩ := List.getElem?_eq_some_iff.mp hg
      exact he ▸ List.getElem_mem hl
    exact init_state_registers input emptyState st0 hinit r.2 hmem y hy
  -- facts about any row that receives a new assignment
  have hnew : ∀ (r : Nat × Feature) (x : Str),
      lookup_assignment (assign_all alpha pfx pad st0
        (input.enum.zipWith (fun p g => (p.1, p.2, g)) codes)) r.1 = some x →
      ∃ g c, x = reef_id pfx g (encode_counter alpha c pad) ∧
        encode_counter alpha c pad ∉ st0.ids pfx g := by
    intro r x hx
    have hmem := lookup_assignment_mem hx
    obtain ⟨g, -, it, -, -, -, c, hxc, hfree⟩ := assign_all_sound hv pfx pad st0 _ _ hmem
    exact ⟨g, c, hxc, hfree⟩
  intro x hx y hy
  rcases hrow p x hx with hpx | ⟨-, hpx⟩ <;> rcases hrow q y hy with hqy | ⟨-, hqy⟩
  · -- both rows newly assigned: pairwise distinctness of the assignments
    have hmp := lookup_assignment_mem hpx
    have hmq := lookup_assignment_mem hqy
    have hdiff : ((p.1, x) : Nat × Str) ≠ (q.1, y) := by
      intro hcontra
      exact hne (congrArg (Prod.fst : Nat × Str → Nat) hcontra)
    have hsym : Symmetric (fun (a b : Nat × Str) => a.2 ≠ b.2) :=
      fun a b hab => hab.symm
    exact hpw.forall hsym hmp hmq hdiff
  · -- new vs old
    obtain ⟨g, c, hxc, hfree⟩ := hnew p x hpx
    obtain ⟨a, b, e, hsplit, hocc⟩ := hreg q hq y hqy
    rw [hxc]
    exact new_id_ne_registered st0.ids hsplit hocc hfree
  · -- old vs new
    obtain ⟨g, c, hyc, hfree⟩ := hnew q y hqy
    obtain ⟨a, b, e, hsplit, hocc⟩ := hreg p hp x hpx
    intro hcontra
    rw [hyc] at hcontra
    exact new_id_ne_registered st0.ids hsplit hocc hfree hcontra.symm
  · -- both rows keep their old identifiers
    exact hold x hpx y hqy

/-! ### Success conditions of the two fallible passes -/

/-- An identifier the existing-identifier pass accepts: exactly three
hyphen-separated parts, countercode made of alphabet symbols. -/
def parses (alpha : Str) (rid : Str) : Prop :=
  ∃ a b e, split_on_hyphen rid = [a, b, e] ∧ (decode_counter alpha e).isSome

theorem register_existing_eq3 {alpha : Str} {rid a b e : Str} (st : AllocState)
    (hs : split_on_hyphen rid = [a, b, e]) :
    register_existing alpha st rid =
      match decode_counter alpha e with
      | some d => Except.ok ⟨setCount st.count a b (max (st.count a b) (d + 1)),
          addId st.ids a b e⟩
      | none => Except.error rid := by
  unfold register_existing
  rw [hs]

theorem register_existing_ok_of_parses {alpha : Str} {rid : Str} (h : parses alpha rid)
    (st : AllocState) : ∃ st', register_existing alpha st rid = Except.ok st' := by
  obtain ⟨a, b, e, hs, hd⟩ := h
  rcases hdec : decode_counter alpha e with _ | d
  · rw [hdec] at hd
    simp at hd
  · refine ⟨⟨setCount st.count a b (max (st.count a b) (d + 1)), addId st.ids a b e⟩, ?_⟩
    rw [register_existing_eq3 st hs, hdec]

theorem register_existing_parses_of_ok {alpha : Str} {rid : Str} {st st' : AllocState}
    (h : register_existing alpha st rid = Except.ok st') : parses alpha rid := by
  unfold register_existing at h
  split at h
  · rename_i a b e hs
    split at h
    · rename_i d hd
      exact ⟨a, b, e, hs, by rw [hd]; rfl⟩
    · exact absurd h (fun hh => Except.noConfusion hh)
  · exact absurd h (fun hh => Except.noConfusion hh)

theorem foldlM_init_parses {alpha : Str} :
    ∀ (features : List Feature) (st st' : AllocState),
      features.foldlM (init_step alpha) st = Except.ok st' →
      ∀ f ∈ features, ∀ rid, f.reefID = some rid → parses alpha rid := by
  intro features
  induction features with
  | nil => intro st st' h f hf; exact absurd hf (List.not_mem_nil f)
  | cons f0 features ih =>
    intro st st' h f hf rid hrid
    rw [List.foldlM_cons] at h
    cases hstep : init_step alpha st f0 with
    | error e0 =>
      rw [hstep] at h
      exact absurd h (fun hh => Except.noConfusion hh)
    | ok st2 =>
      rw [hstep] at h
      rcases List.mem_cons.1 hf with rfl | hf2
      · unfold init_step at hstep
        rw [hrid] at hstep
        exact register_existing_parses_of_ok hstep
      · exact ih st2 st' h f hf2 rid hrid

theorem foldlM_init_ok {alpha : Str} :
    ∀ (features : List Feature) (st : AllocState),
      (∀ f ∈ features, ∀ rid, f.reefID = some rid → parses alpha rid) →
      ∃ st', features.foldlM (init_step alpha) st = Except.ok st' := by
  intro features
  induction features with
  | nil => intro st _; exact ⟨st, rfl⟩
  | cons f0 features ih =>
    intro st hall
    cases hr : f0.reefID with
    | none =>
      obtain ⟨st', hst'⟩ := ih st (fun f hf => hall f (List.mem_cons_of_mem f0 hf))
      refine ⟨st', ?_⟩
      rw [List.foldlM_cons]
      have hstep : init_step alpha st f0 = Except.ok st := by
        unfold init_step
        rw [hr]
      rw [hstep]
      exact hst'
    | some rid =>
      obtain ⟨st2, hst2⟩ := register_existing_ok_of_parses
        (hall f0 (List.mem_cons_self f0 features) rid hr) st
      obtain ⟨st', hst'⟩ := ih st2 (fun f hf => hall f (List.mem_cons_of_mem f0 hf))
      refine ⟨st', ?_⟩
      rw [List.foldlM_cons]
      have hstep : init_step alpha st f0 = Except.ok st2 := by
        unfold init_step
        rw [hr]
        exact hst2
      rw [hstep]
      exact hst'

theorem init_state_ok {alpha : Str} {features : List Feature}
    (h : ∀ f ∈ features, ∀ rid, f.reefID = some rid → parses alpha rid) :
    ∃ st', init_state alpha features = Except.ok st' :=
  foldlM_init_ok features emptyState h

theorem grid_codes_ok {alpha : Str} :
    ∀ (features : List Feature),
      (∀ f ∈ features, ∃ s, encode_grid alpha f.lon f.lat = some s) →
      ∃ codes, grid_codes alpha features = Except.ok codes := by
  intro features
  unfold grid_codes
  induction features with
  | nil => intro _; exact ⟨[], rfl⟩
  | cons f0 features ih =>
    intro hall
    obtain ⟨s0, hs0⟩ := hall f0 (List.mem_cons_self f0 features)
    obtain ⟨cs, hcs⟩ := ih (fun f hf => hall f (List.mem_cons_of_mem f0 hf))
    refine ⟨s0 :: cs, ?_⟩
    rw [List.mapM_cons]
    have hc0 : code_of alpha f0 = Except.ok s0 := by
      unfold code_of
      rw [hs0]
    rw [hc0, hcs]
    rfl

/-! ### When every row is labelled, the assignment pass does nothing -/

theorem foldl_assign_skip (alpha pfx : Str) (pad : Nat) (g : Str) :
    ∀ (group : List (Nat × Feature)) (acc : AllocState × List (Nat × Nat)),
      (∀ it ∈ group, (it.2 : Feature).reefID.isSome) →
      group.foldl (assign_step alpha pfx pad g) acc = acc := by
  intro group
  induction group with
  | nil => intro acc _; rfl
  | cons it group ih =>
    intro acc hall
    rw [List.foldl_cons]
    have hsome := hall it (List.mem_cons_self it group)
    cases hr : it.2.reefID with
    | none => rw [hr] at hsome; simp at hsome
    | some rid =>
      have hstep : assign_step alpha pfx pad g acc it = acc := by
        unfold assign_step
        rw [hr]
      rw [hstep]
      exact ih acc (fun it2 hit2 => hall it2 (List.mem_cons_of_mem it hit2))

theorem assign_all_empty {alpha pfx : Str} {pad : Nat} {st0 : AllocState}
    {items : List (Nat × Feature × Str)}
    (h : ∀ it ∈ items, (it.2.1 : Feature).reefID.isSome) :
    assign_all alpha pfx pad st0 items = [] := by
  unfold assign_all
  have hgen : ∀ (gs : List Str) (st : AllocState),
      (gs.foldl (group_step alpha pfx pad items) (st, ([] : List (Nat × Str)))).2 = [] := by
    intro gs
    induction gs with
    | nil => intro st; rfl
    | cons g gs ih =>
      intro st
      rw [List.foldl_cons]
      have hgrp : assign_group alpha pfx pad g st (sort_group (group_features items g)) =
          (st, []) := by
        unfold assign_group
        apply foldl_assign_skip
        intro it hit
        have hit2 := (List.mem_insertionSort _).mp hit
        have hmem := mem_group_features hit2
        exact h _ hmem
      have hstep : group_step alpha pfx pad items (st, []) g = (st, []) := by
        unfold group_step
        rw [hgrp]
        rfl
      rw [hstep]
      exact ih st
  exact hgen _ st0

theorem apply_assignments_nil (features : List Feature) :
    apply_assignments features [] = features := by
  unfold apply_assignments
  show features.enum.map Prod.snd = features
  exact List.enum_map_snd features

/-! ### Every unlabelled row receives an assignment -/

theorem foldl_assign_acc_sub (alpha pfx : Str) (pad : Nat) (g : Str) :
    ∀ (group : List (Nat × Feature)) (acc : AllocState × List (Nat × Nat)) (x : Nat × Nat),
      x ∈ acc.2 → x ∈ (group.foldl (assign_step alpha pfx pad g) acc).2 := by
  intro group
  induction group with
  | nil => intro acc x hx; exact hx
  | cons it group ih =>
    intro acc x hx
    rw [List.foldl_cons]
    apply ih
    cases hr : it.2.reefID with
    | some rid =>
      have hstep : assign_step alpha pfx pad g acc it = acc := by
        unfold assign_step
        rw [hr]
      rw [hstep]
      exact hx
    | none =>
      have hstep : assign_step alpha pfx pad g acc it =
          (⟨setCount acc.1.count pfx g (chosen alpha pfx pad g acc.1 + 1), acc.1.ids⟩,
            acc.2 ++ [(it.1, chosen alpha pfx pad g acc.1)]) := by
        unfold assign_step
        rw [hr]
      rw [hstep]
      exact List.mem_append_left _ hx

theorem foldl_assign_covers (alpha pfx : Str) (pad : Nat) (g : Str) :
    ∀ (group : List (Nat × Feature)) (acc : AllocState × List (Nat × Nat))
      (it : Nat × Feature), it ∈ group → it.2.reefID = none →
      ∃ c, (it.1, c) ∈ (group.foldl (assign_step alpha pfx pad g) acc).2 := by
  intro group
  induction group with
  | nil => intro acc it hmem; exact absurd hmem (List.not_mem_nil it)
  | cons it0 group ih =>
    intro acc it hmem hnone
    rw [List.foldl_cons]
    rcases List.mem_cons.1 hmem with rfl | h2
    · refine ⟨chosen alpha pfx pad g acc.1, ?_⟩
      apply foldl_assign_acc_sub
      have hstep : assign_step alpha pfx pad g acc it =
          (⟨setCount acc.1.count pfx g (chosen alpha pfx pad g acc.1 + 1), acc.1.ids⟩,
            acc.2 ++ [(it.1, chosen alpha pfx pad g acc.1)]) := by
        unfold assign_step
        rw [hnone]
      rw [hstep]
      exact List.mem_append_right _ (by simp)
    · exact ih _ it h2 hnone

theorem foldl_groups_acc_sub (alpha pfx : Str) (pad : Nat)
    (items : List (Nat × Feature × Str)) :
    ∀ (gs : List Str) (acc : AllocState × List (Nat × Str)) (x : Nat × Str),
      x ∈ acc.2 → x ∈ (gs.foldl (group_step alpha pfx pad items) acc).2 := by
  intro gs
  induction gs with
  | nil => intro acc x hx; exact hx
  | cons g gs ih =>
    intro acc x hx
    rw [List.foldl_cons]
    apply ih
    show x ∈ acc.2 ++ _
    exact List.mem_append_left _ hx

theorem mem_group_features_of_item {items : List (Nat × Feature × Str)}
    {it : Nat × Feature × Str} (hit : it ∈ items) :
    (it.1, it.2.1) ∈ group_features items it.2.2 := by
  unfold group_features
  apply List.mem_map.2
  refine ⟨it, ?_, rfl⟩
  rw [List.mem_filter]
  exact ⟨hit, by simp⟩

theorem foldl_groups_covers (alpha pfx : Str) (pad : Nat)
    (items : List (Nat × Feature × Str)) :
    ∀ (gs : List Str) (acc : AllocState × List (Nat × Str)) (g : Str) (it : Nat × Feature),
      g ∈ gs → it ∈ group_features items g → it.2.reefID = none →
      ∃ r, (it.1, r) ∈ (gs.foldl (group_step alpha pfx pad items) acc).2 := by
  intro gs
  induction gs with
  | nil => intro acc g it hg; exact absurd hg (List.not_mem_nil g)
  | cons g0 gs ih =>
    intro acc g it hg hmem hnone
    rw [List.foldl_cons]
    rcases List.mem_cons.1 hg with rfl | hg2
    · obtain ⟨c, hc⟩ := foldl_assign_covers alpha pfx pad g
        (sort_group (group_features items g)) (acc.1, []) it
        ((List.mem_insertionSort _).mpr hmem) hnone
      refine ⟨reef_id pfx g (encode_counter alpha c pad), ?_⟩
      apply foldl_groups_acc_sub
      show _ ∈ acc.2 ++ (assign_group alpha pfx pad g acc.1
        (sort_group (group_features items g))).2.map
          (fun ic => (ic.1, reef_id pfx g (encode_counter alpha ic.2 pad)))
      apply List.mem_append_right
      exact List.mem_map.2 ⟨(it.1, c), hc, rfl⟩
    · exact ih _ g it hg2 hmem hnone

theorem assign_all_covers (alpha pfx : Str) (pad : Nat) (st0 : AllocState)
    {items : List (Nat × Feature × Str)} (it : Nat × Feature × Str)
    (hit : it ∈ items) (hnone : (it.2.1 : Feature).reefID = none) :
    ∃ r, (it.1, r) ∈ assign_all alpha pfx pad st0 items := by
  unfold assign_all
  exact foldl_groups_covers alpha pfx pad items _ (st0, []) it.2.2 (it.1, it.2.1)
    (mem_unique_codes_iff.mpr (List.mem_map.2 ⟨it, hit, rfl⟩))
    (mem_group_features_of_item hit) hnone

theorem lookup_assignment_isSome_of_mem {asg : List (Nat × Str)} {i : Nat} {r : Str}
    (h : (i, r) ∈ asg) : ∃ r2, lookup_assignment asg i = some r2 := by
  unfold lookup_assignment
  have hsome : (asg.find? (fun a => decide (a.1 = i))).isSome := by
    rw [List.find?_isSome]
    exact ⟨(i, r), h, by simp⟩
  cases ho : asg.find? (fun a => decide (a.1 = i)) with
  | none => rw [ho] at hsome; simp at hsome
  | some a => exact ⟨a.2, rfl⟩

theorem items_getElem {input : List Feature} {codes : List Str} {i : Nat} {f : Feature}
    {c : Str} (h1 : input[i]? = some f) (h2 : codes[i]? = some c) :
    (i, f, c) ∈ input.enum.zipWith (fun p g => (p.1, p.2, g)) codes := by
  apply List.mem_iff_getElem?.mpr
  refine ⟨i, ?_⟩
  rw [List.getElem?_zipWith, List.getElem?_enum, h1, h2]
  rfl

/-! ### Row-by-row characterisation of a successful run -/

theorem run_row {alpha pfx : Str} {pad : Nat} {input out : List Feature}
    (h : process_shapefile alpha pfx pad input = Except.ok out) :
    ∃ st0 codes, init_state alpha input = Except.ok st0 ∧
      grid_codes alpha input = Except.ok codes ∧
      out.length = input.length ∧
      ∀ (i : Nat) (fi : Feature), input[i]? = some fi →
        (∃ rid, lookup_assignment (assign_all alpha pfx pad st0
            (input.enum.zipWith (fun p g => (p.1, p.2, g)) codes)) i = some rid ∧
          out[i]? = some { fi with reefID := some rid }) ∨
        (lookup_assignment (assign_all alpha pfx pad st0
            (input.enum.zipWith (fun p g => (p.1, p.2, g)) codes)) i = none ∧
          out[i]? = some fi) := by
  obtain ⟨st0, codes, hinit, hcodes, hout⟩ := process_shapefile_ok h
  refine ⟨st0, codes, hinit, hcodes, ?_, ?_⟩
  · rw [hout]
    exact apply_assignments_length _ _
  · intro i fi hfi
    obtain ⟨hi, hfeq⟩ := List.getElem?_eq_some_iff.mp hfi
    have hrow := apply_assignments_getElem input (assign_all alpha pfx pad st0
      (input.enum.zipWith (fun p g => (p.1, p.2, g)) codes)) i hi
    cases hl : lookup_assignment (assign_all alpha pfx pad st0
        (input.enum.zipWith (fun p g => (p.1, p.2, g)) codes)) i with
    | some rid =>
      left
      refine ⟨rid, rfl, ?_⟩
      rw [hout, hrow, hl, hfeq]
    | none =>
      right
      refine ⟨rfl, ?_⟩
      rw [hout, hrow, hl, hfeq]

/-- After a successful run every feature of the output carries an
identifier. -/
theorem run_output_all_labeled {alpha pfx : Str} {pad : Nat} {input out : List Feature}
    (h : process_shapefile alpha pfx pad input = Except.ok out) :
    ∀ f ∈ out, (f.reefID : Option Str).isSome := by
  obtain ⟨st0, codes, hinit, hcodes, hlen, hrow⟩ := run_row h
  obtain ⟨hclen, -⟩ := grid_codes_spec input codes hcodes
  intro f hf
  rcases List.mem_iff_getElem?.1 hf with ⟨i, hi⟩
  have hiout : i < out.length := (List.getElem?_eq_some_iff.mp hi).1
  have hiin : i < input.length := by omega
  have hfi : input[i]? = some input[i] := List.getElem?_eq_getElem hiin
  rcases hrow i input[i] hfi with ⟨rid, -, hsome⟩ | ⟨hnone, hsome⟩
  · rw [hi] at hsome
    have hfeq := Option.some_inj.mp hsome
    rw [hfeq]
    rfl
  · rw [hi] at hsome
    have hfeq := Option.some_inj.mp hsome
    cases hr : (input[i] : Feature).reefID with
    | some rid =>
      rw [hfeq, hr]
      rfl
    | none =>
      exfalso
      have hci : i < codes.length := by omega
      have hitem := items_getElem hfi (List.getElem?_eq_getElem hci)
      obtain ⟨r, hrm⟩ := assign_all_covers alpha pfx pad st0
        (i, input[i], codes[i]) hitem hr
      obtain ⟨r2, hr2⟩ := lookup_assignment_isSome_of_mem hrm
      rw [hnone] at hr2
      exact Option.noConfusion hr2

/-! ### Characters of grid codes -/

theorem codes_no_hyphen {alpha : Str} {input : List Feature} {codes : List Str}
    (hnh : '-' ∉ alpha) (hcodes : grid_codes alpha input = Except.ok codes) :
    ∀ g ∈ codes, '-' ∉ g := by
  intro g hg
  obtain ⟨hlen, hspec⟩ := grid_codes_spec input codes hcodes
  rcases List.mem_iff_getElem?.1 hg with ⟨k, hk⟩
  have hklen : k < codes.length := (List.getElem?_eq_some_iff.mp hk).1
  have hkin : k < input.length := by omega
  rcases hspec k input[k] (List.getElem?_eq_getElem hkin) with ⟨c, hc, henc⟩
  have hceq : g = c := by
    rw [hk] at hc
    exact Option.some_inj.mp hc
  rw [← hceq] at henc
  intro hmem
  exact hnh ((encode_grid_parts henc).2 '-' hmem)

/-- Idempotence helper: feeding a successful run's output back in
reproduces it unchanged, provided the prefix and the alphabet are free of
hyphens so that every new identifier re-parses. -/
theorem run_idempotent {alpha : Str} (hv : valid_alphabet alpha) (hnh : '-' ∉ alpha)
    {pfx : Str} (hpfx : '-' ∉ pfx) {pad : Nat} {input out : List Feature}
    (h : process_shapefile alpha pfx pad input = Except.ok out) :
    process_shapefile alpha pfx pad out = Except.ok out := by
  have hlen0 : 0 < alpha.length := by
    obtain ⟨-, h2⟩ := hv
    omega
  obtain ⟨st0, codes, hinit, hcodes, hlen, hrow⟩ := run_row h
  obtain ⟨hclen, hspec⟩ := grid_codes_spec input codes hcodes
  -- every identifier present in the output parses
  have hparse : ∀ f ∈ out, ∀ rid, f.reefID = some rid → parses alpha rid := by
    intro f hf rid hrid
    rcases List.mem_iff_getElem?.1 hf with ⟨i, hi⟩
    have hiout : i < out.length := (List.getElem?_eq_some_iff.mp hi).1
    have hiin : i < input.length := by omega
    have hfi : input[i]? = some input[i] := List.getElem?_eq_getElem hiin
    rcases hrow i input[i] hfi with ⟨rid2, hlook, hsome⟩ | ⟨-, hsome⟩
    · rw [hi] at hsome
      have hfeq := Option.some_inj.mp hsome
      have hmem := lookup_assignment_mem hlook
      obtain ⟨g, hg, -, -, -, -, c, hrc, -⟩ :=
        assign_all_sound hv pfx pad st0 _ _ hmem
      have hgc : '-' ∉ g := by
        rw [mem_unique_codes_iff] at hg
        rcases List.mem_map.1 hg with ⟨it2, hit2, rfl⟩
        exact codes_no_hyphen hnh hcodes _
          ((List.getElem?_eq_some_iff.mp (mem_items_spec hit2).2).2 ▸
            List.getElem_mem (List.getElem?_eq_some_iff.mp (mem_items_spec hit2).2).1)
      have hrid2 : rid = rid2 := by
        rw [hfeq] at hrid
        exact (by simpa using hrid : rid2 = rid).symm
      have hrc2 : rid2 = reef_id pfx g (encode_counter alpha c pad) := hrc
      rw [hrid2, hrc2]
      refine ⟨pfx, g, encode_counter alpha c pad,
        split_on_hyphen_reef_id hpfx hgc (encode_counter_no_hyphen hlen0 hnh c pad), ?_⟩
      rw [decode_encode_counter hv]
      rfl
    · rw [hi] at hsome
      have hfeq := Option.some_inj.mp hsome
      have hin : (input[i] : Feature) ∈ input := List.getElem_mem hiin
      apply foldlM_init_parses input emptyState st0 hinit _ hin
      rw [← hfeq]
      exact hrid
  -- the output's coordinates are those of the input, so grid codes succeed
  have hcoords : ∀ f ∈ out, ∃ s, encode_grid alpha f.lon f.lat = some s := by
    intro f hf
    rcases List.mem_iff_getElem?.1 hf with ⟨i, hi⟩
    have hiout : i < out.length := (List.getElem?_eq_some_iff.mp hi).1
    have hiin : i < input.length := by omega
    have hfi : input[i]? = some input[i] := List.getElem?_eq_getElem hiin
    rcases hspec i input[i] hfi with ⟨c, -, henc⟩
    rcases hrow i input[i] hfi with ⟨rid2, -, hsome⟩ | ⟨-, hsome⟩ <;> rw [hi] at hsome <;>
      have hfeq := Option.some_inj.mp hsome
    · rw [hfeq]
      exact ⟨c, henc⟩
    · rw [hfeq]
      exact ⟨c, henc⟩
  obtain ⟨st0', hinit2⟩ := init_state_ok hparse
  obtain ⟨codes2, hcodes2⟩ := grid_codes_ok out hcoords
  have hlabeled := run_output_all_labeled h
  have hitems2 : ∀ it ∈ out.enum.zipWith (fun p g => (p.1, p.2, g)) codes2,
      (it.2.1 : Feature).reefID.isSome := by
    intro it hit
    have hspec2 := (mem_items_spec hit).1
    obtain ⟨hl2, he2⟩ := List.getElem?_eq_some_iff.mp hspec2
    exact hlabeled it.2.1 (he2 ▸ List.getElem_mem hl2)
  unfold process_shapefile
  rw [hinit2, hcodes2]
  show Except.ok (apply_assignments out (assign_all alpha pfx pad st0'
    (out.enum.zipWith (fun p g => (p.1, p.2, g)) codes2))) = Except.ok out
  rw [assign_all_empty hitems2, apply_assignments_nil]

/-! ### Concrete sample collections and runs -/

/-- A feature at (147, -20) already labelled `R-52-7`. -/
def sampleLabeled : Feature := ⟨147, -20, ['a'], some ("R-52-7".toList)⟩

/-- A feature at (100, 10) carrying the same identifier `R-52-7`. -/
def sampleLabeledB : Feature := ⟨100, 10, ['b'], some ("R-52-7".toList)⟩

/-- An unlabelled feature at (147, -20). -/
def sampleUnlabeled : Feature := ⟨147, -20, ['c'], none⟩

/-- A feature whose identifier `RX` does not split into three parts. -/
def sampleMalformed : Feature := ⟨147, -20, ['d'], some ['R', 'X']⟩

/-- A second unlabelled feature at (100, 10). -/
def sampleOther : Feature := ⟨100, 10, ['e'], none⟩

/-- A prefix that itself contains a hyphen. -/
def hyphenPfx : Str := ['A', '-', 'B']

theorem code_of_eval {alpha : Str} (f : Feature) {s : Str}
    (h : encode_grid alpha f.lon f.lat = some s) : code_of alpha f = Except.ok s := by
  unfold code_of
  rw [h]

theorem run_single :
    process_shapefile BASE_B10 ['R'] 3 [sampleLabeled] = Except.ok [sampleLabeled] := by
  have hcodes : grid_codes BASE_B10 [sampleLabeled] =
      Except.ok [['9', '0', '3', '8']] := by
    unfold grid_codes
    rw [List.mapM_cons, code_of_eval sampleLabeled encode_grid_b10_147_m20, List.mapM_nil]
    rfl
  unfold process_shapefile
  rw [hcodes]
  decide

theorem run_dup :
    process_shapefile BASE_B10 ['R'] 3 [sampleLabeled, sampleLabeledB] =
      Except.ok [sampleLabeled, sampleLabeledB] := by
  have hcodes : grid_codes BASE_B10 [sampleLabeled, sampleLabeledB] =
      Except.ok [['9', '0', '3', '8'], ['7', '7', '5', '5']] := by
    unfold grid_codes
    rw [List.mapM_cons, code_of_eval sampleLabeled encode_grid_b10_147_m20,
      List.mapM_cons, code_of_eval sampleLabeledB encode_grid_b10_100_10, List.mapM_nil]
    rfl
  unfold process_shapefile
  rw [hcodes]
  decide

theorem run_hyphen_pfx :
    process_shapefile BASE_B10 hyphenPfx 3 [sampleUnlabeled] =
      Except.ok [⟨147, -20, ['c'], some ("A-B-9038-000".toList)⟩] := by
  have hcodes : grid_codes BASE_B10 [sampleUnlabeled] =
      Except.ok [['9', '0', '3', '8']] := by
    unfold grid_codes
    rw [List.mapM_cons, code_of_eval sampleUnlabeled encode_grid_b10_147_m20, List.mapM_nil]
    rfl
  unfold process_shapefile
  rw [hcodes]
  decide

/-! ## Claim theorems -/

/-- C1 (counterexample): the Identifier Allocator completes on an input whose
two features already carry the same identifier `R-52-7` and leaves both in
place, so the output contains two features with the same full identifier
string — the uniqueness claim as stated fails on duplicated input
identifiers. -/
theorem C1_counterexample :
    process_shapefile BASE_B10 ['R'] 3 [sampleLabeled, sampleLabeledB] =
      Except.ok [sampleLabeled, sampleLabeledB] ∧
    ¬ (output_reef_ids [sampleLabeled, sampleLabeledB]).Nodup :=
  ⟨run_dup, by decide⟩

/-- C1 (amended): provided the identifiers already present in the input are
pairwise distinct, after a completed run of the Identifier Allocator no two
features of the output share the same full identifier string (hence within
every (prefix, gridcode) pair all countercodes are pairwise distinct). -/
theorem C1_output_ids_unique {alpha : Str} (hv : valid_alphabet alpha) {pfx : Str}
    {pad : Nat} {input out : List Feature}
    (h : process_shapefile alpha pfx pad input = Except.ok out)
    (hnd : (output_reef_ids input).Nodup) :
    (output_reef_ids out).Nodup :=
  run_output_ids_nodup hv h hnd

/-- C1 witness: the amended uniqueness theorem at a concrete run that
assigns one fresh identifier. -/
theorem C1_witness :
    valid_alphabet BASE_B10 ∧
    (output_reef_ids [sampleUnlabeled]).Nodup ∧
    (output_reef_ids [⟨147, -20, ['c'], some ("A-B-9038-000".toList)⟩]).Nodup :=
  ⟨by decide, by decide, C1_output_ids_unique (by decide) run_hyphen_pfx (by decide)⟩

/-- C2: a feature that enters a completed run with an identifier leaves it at
the same row completely unchanged — the allocator writes identifiers only to
rows whose identifier is missing, however many new features sit alongside. -/
theorem C2_existing_preserved {alpha : Str} (hv : valid_alphabet alpha) {pfx : Str}
    {pad : Nat} {input out : List Feature}
    (h : process_shapefile alpha pfx pad input = Except.ok out)
    (i : Nat) (f : Feature) (hf : input[i]? = some f) (rid : Str)
    (hrid : f.reefID = some rid) : out[i]? = some f :=
  run_preserves_existing hv h i f hf (by rw [hrid]; rfl)

/-- C2 witness: the frame theorem at a concrete one-row labelled run. -/
theorem C2_witness :
    valid_alphabet BASE_B10 ∧
    ([sampleLabeled][0]? = some sampleLabeled) ∧
    sampleLabeled.reefID = some ("R-52-7".toList) ∧
    [sampleLabeled][0]? = some sampleLabeled :=
  ⟨by decide, by decide, by decide,
    C2_existing_preserved (by decide) run_single 0 sampleLabeled (by decide)
      ("R-52-7".toList) (by decide)⟩

/-- C3 (counterexample): with the hyphen-containing prefix `A-B` the first
run completes and writes `A-B-9038-000`, but feeding that output back in
aborts with an uncaught error while re-parsing the identifier — the second
run is not a no-op, so unconditional idempotence fails. -/
theorem C3_counterexample :
    process_shapefile BASE_B10 hyphenPfx 3 [sampleUnlabeled] =
      Except.ok [⟨147, -20, ['c'], some ("A-B-9038-000".toList)⟩] ∧
    process_shapefile BASE_B10 hyphenPfx 3
        [⟨147, -20, ['c'], some ("A-B-9038-000".toList)⟩] =
      Except.error ("A-B-9038-000".toList) :=
  ⟨run_hyphen_pfx, by decide⟩

/-- C3 (amended): provided the prefix and the alphabet contain no hyphen (so
that every identifier the first run writes re-parses), running the allocator
a second time on the first run's output succeeds and returns that output
unchanged: zero features remain unlabelled after the first run. -/
theorem C3_idempotent {alpha : Str} (hv : valid_alphabet alpha) (hnh : '-' ∉ alpha)
    {pfx : Str} (hpfx : '-' ∉ pfx) {pad : Nat} {input out : List Feature}
    (h : process_shapefile alpha pfx pad input = Except.ok out) :
    process_shapefile alpha pfx pad out = Except.ok out :=
  run_idempotent hv hnh hpfx h

/-- C3 witness: idempotence at a concrete completed run. -/
theorem C3_witness :
    valid_alphabet BASE_B10 ∧ '-' ∉ BASE_B10 ∧ '-' ∉ (['R'] : Str) ∧
    process_shapefile BASE_B10 ['R'] 3 [sampleLabeled] = Except.ok [sampleLabeled] :=
  ⟨by decide, by decide, by decide,
    C3_idempotent (by decide) (by decide) (by decide) run_single⟩

/-- C4: for every valid alphabet, every counter and every padding width up to
10 for which the encoding is at least one symbol long, decoding the encoded
counter returns the counter: the counter codec round-trips. -/
theorem C4_roundtrip {alpha : Str} (hv : valid_alphabet alpha) (n w : Nat) (hw : w ≤ 10)
    (hlen : 1 ≤ (encode_counter alpha n w).length) :
    decode_counter alpha (encode_counter alpha n w) = some n :=
  decode_encode_counter hv n w

/-- C4 witness: the round trip at the spec's literal example 172 with
padding 3 in base 10. -/
theorem C4_witness :
    valid_alphabet BASE_B10 ∧ (3 : Nat) ≤ 10 ∧
    1 ≤ (encode_counter BASE_B10 172 3).length ∧
    decode_counter BASE_B10 (encode_counter BASE_B10 172 3) = some 172 :=
  ⟨by decide, by decide, by decide, C4_roundtrip (by decide) 172 3 (by decide) (by decide)⟩

/-- C5: at the self-check's input (147, -20) with the Compact-32 capitals
alphabet, encode_grid returns the string `X4EG`, not the `XE4G` the script's
own run_tests asserts: the f-string of line 57 emits the digits in the order
lon-major, lon-sub, lat-major, lat-sub, while the test expectation reads
lon-major, lat-major, lon-sub, lat-sub, so the code contradicts its own
test. -/
theorem C5_self_check_fails :
    encode_grid BASE_B32_CAPS run_tests_case.1 run_tests_case.2.1 =
      some ['X', '4', 'E', 'G'] ∧
    (['X', '4', 'E', 'G'] : Str) ≠ run_tests_case.2.2 := by
  constructor
  · exact encode_grid_b32_147_m20
  · decide

/-- C6 (counterexample): on a collection whose first feature carries the
malformed identifier `RX`, the run aborts with an uncaught error and never
produces an output collection — the well-formed second feature is not
processed, contradicting the warn-and-continue claim. -/
theorem C6_counterexample :
    process_shapefile BASE_B10 ['R'] 3 [sampleMalformed, sampleOther] =
      Except.error ['R', 'X'] ∧
    ∀ out, process_shapefile BASE_B10 ['R'] 3 [sampleMalformed, sampleOther] ≠
      Except.ok out := by
  refine ⟨by decide, ?_⟩
  intro out hout
  rw [(by decide : process_shapefile BASE_B10 ['R'] 3 [sampleMalformed, sampleOther] =
    Except.error ['R', 'X'])] at hout
  exact Except.noConfusion hout

/-- C6 (amended): an existing identifier that does not split into exactly
three hyphen-separated parts makes the whole run abort with an error — the
malformed identifier is fatal; there is no warn-and-continue path. -/
theorem C6_malformed_aborts {alpha pfx : Str} {pad : Nat} {input : List Feature}
    {f0 : Feature} {rid : Str} (hf : f0 ∈ input) (hr : f0.reefID = some rid)
    (hbad : (split_on_hyphen rid).length ≠ 3) :
    ∃ e, process_shapefile alpha pfx pad input = Except.error e := by
  obtain ⟨e, he⟩ := init_state_error_of_malformed hf hr hbad
  exact ⟨e, process_shapefile_error_of_init he⟩

/-- C6 witness: the amended abort theorem at the concrete malformed input. -/
theorem C6_witness :
    sampleMalformed ∈ [sampleMalformed, sampleOther] ∧
    sampleMalformed.reefID = some ['R', 'X'] ∧
    (split_on_hyphen ['R', 'X']).length ≠ 3 ∧
    ∃ e, process_shapefile BASE_B10 ['R'] 3 [sampleMalformed, sampleOther] =
      Except.error e :=
  ⟨by decide, by decide, by decide,
    C6_malformed_aborts (List.mem_cons_self sampleMalformed [sampleOther]) rfl (by decide)⟩

/-- C8: for every valid alphabet and every (lon, lat) with lon in [-180, 180)
and lat in [-90, 90), encode_grid returns a string of exactly 4 symbols, each
of which belongs to the active alphabet — all four digit indices are in
range and the lookup never fails. -/
theorem C8_grid_in_domain {alpha : Str} (hv : valid_alphabet alpha) {lon lat : ℚ}
    (h1 : -180 ≤ lon) (h2 : lon < 180) (h3 : -90 ≤ lat) (h4 : lat < 90) :
    ∃ s, encode_grid alpha lon lat = some s ∧ s.length = 4 ∧ ∀ c ∈ s, c ∈ alpha :=
  encode_grid_total (by obtain ⟨-, h⟩ := hv; omega) h1 h2 h3 h4

/-- C8 witness: the totality theorem at (147, -20) in base 10. -/
theorem C8_witness :
    valid_alphabet BASE_B10 ∧
    (-180 ≤ (147 : ℚ) ∧ (147 : ℚ) < 180 ∧ -90 ≤ (-20 : ℚ) ∧ (-20 : ℚ) < 90) ∧
    ∃ s, encode_grid BASE_B10 147 (-20) = some s ∧ s.length = 4 ∧
      ∀ c ∈ s, c ∈ BASE_B10 :=
  ⟨by decide, by norm_num,
    C8_grid_in_domain (by decide) (by norm_num) (by norm_num) (by norm_num) (by norm_num)⟩

/-- C9 (counterexample): called with width 0 the encoder silently returns
the empty string — neither a single zero symbol nor a rejection, so the
claim as stated fails at width 0. -/
theorem C9_counterexample :
    encode_counter BASE_B10 0 0 = [] ∧ encode_counter BASE_B10 0 0 ≠ ['0'] := by
  decide

/-- C9 (amended): for every valid alphabet, encode_counter(0, w) is the
alphabet's zero symbol repeated exactly w times for every w ≥ 0; in
particular it is a single zero symbol exactly when w = 1, and for w = 0 it
is the empty string, returned without error rather than rejected. -/
theorem C9_encode_zero {alpha : Str} (hv : valid_alphabet alpha) (w : Nat) :
    encode_counter alpha 0 w = List.replicate w (alpha.getD 0 ' ') :=
  encode_counter_zero alpha w

/-- C9 witness: the zero encoding at width 3 in base 10. -/
theorem C9_witness :
    valid_alphabet BASE_B10 ∧
    encode_counter BASE_B10 0 3 = List.replicate 3 (BASE_B10.getD 0 ' ') :=
  ⟨by decide, C9_encode_zero (by decide) 3⟩

/-- C10: within one run and one (prefix, gridcode) group, the counters the
allocator commits are strictly increasing in commit order, the resulting
countercodes are pairwise distinct, and the occupied set is never extended
by new assignments. -/
theorem C10_counters_increase {alpha : Str} (hv : valid_alphabet alpha) (pfx : Str)
    (pad : Nat) (g : Str) (st : AllocState) (group : List (Nat × Feature)) :
    ((assign_group alpha pfx pad g st group).2.map (fun x => x.2)).Pairwise (· < ·) ∧
    (((assign_group alpha pfx pad g st group).2.map (fun x => x.2)).map
      (fun c => encode_counter alpha c pad)).Nodup ∧
    (assign_group alpha pfx pad g st group).1.ids = st.ids := by
  refine ⟨assign_group_counters_mono alpha pfx pad g st group, ?_,
    assign_group_ids alpha pfx pad g st group⟩
  exact (assign_group_counters_mono alpha pfx pad g st group).map _
    (fun a b hab heq => absurd (encode_counter_inj hv heq) (by omega))

/-- C10 witness: the counter-monotonicity theorem at a concrete two-feature
group. -/
theorem C10_witness :
    valid_alphabet BASE_B10 ∧
    (((assign_group BASE_B10 ['R'] 3 ['9', '0', '3', '8'] emptyState
        [(0, sampleUnlabeled), (1, sampleOther)]).2.map (fun x => x.2)).Pairwise (· < ·) ∧
      (((assign_group BASE_B10 ['R'] 3 ['9', '0', '3', '8'] emptyState
        [(0, sampleUnlabeled), (1, sampleOther)]).2.map (fun x => x.2)).map
          (fun c => encode_counter BASE_B10 c 3)).Nodup ∧
      (assign_group BASE_B10 ['R'] 3 ['9', '0', '3', '8'] emptyState
        [(0, sampleUnlabeled), (1, sampleOther)]).1.ids = emptyState.ids) :=
  ⟨by decide, C10_counters_increase (by decide) ['R'] 3 ['9', '0', '3', '8'] emptyState
    [(0, sampleUnlabeled), (1, sampleOther)]⟩

/-! ## Ties in the centroid-sum sort and the order of input rows -/

/-- A second unlabelled feature at the same centroid as `sampleUnlabeled`:
the two centroid sums tie, so the stable sort keeps whichever input order
the rows arrived in. -/
def tieB : Feature := ⟨147, -20, ['f'], none⟩

theorem sort_group_pair_le {a b : Nat × Feature}
    (h : centroid_sum a.2 ≤ centroid_sum b.2) : sort_group [a, b] = [a, b] := by
  unfold sort_group
  simp [List.insertionSort, List.orderedInsert, h]

theorem process_shapefile_eval {alpha pfx : Str} {pad : Nat} {input : List Feature}
    {st0 : AllocState} {codes : List Str}
    (h1 : init_state alpha input = Except.ok st0)
    (h2 : grid_codes alpha input = Except.ok codes) :
    process_shapefile alpha pfx pad input = Except.ok (apply_assignments input
      (assign_all alpha pfx pad st0 (input.enum.zipWith (fun p g => (p.1, p.2, g)) codes))) := by
  unfold process_shapefile
  rw [h1, h2]
  rfl

theorem assign_tie_ab :
    assign_all BASE_B10 ['R'] 3 emptyState
      [(0, sampleUnlabeled, ['9', '0', '3', '8']), (1, tieB, ['9', '0', '3', '8'])] =
      [(0, "R-9038-000".toList), (1, "R-9038-001".toList)] := by
  have hle : centroid_sum ((0 : Nat), sampleUnlabeled).2 ≤ centroid_sum ((1 : Nat), tieB).2 :=
    le_of_eq rfl
  unfold assign_all
  rw [show unique_codes ([(0, sampleUnlabeled, ['9', '0', '3', '8']),
      (1, tieB, ['9', '0', '3', '8'])].map (fun it => it.2.2)) = [['9', '0', '3', '8']] from rfl]
  rw [List.foldl_cons, List.foldl_nil]
  unfold group_step
  rw [show group_features [(0, sampleUnlabeled, ['9', '0', '3', '8']),
      (1, tieB, ['9', '0', '3', '8'])] (['9', '0', '3', '8']) =
      [(0, sampleUnlabeled), (1, tieB)] from rfl]
  rw [sort_group_pair_le hle]
  decide

theorem assign_tie_ba :
    assign_all BASE_B10 ['R'] 3 emptyState
      [(0, tieB, ['9', '0', '3', '8']), (1, sampleUnlabeled, ['9', '0', '3', '8'])] =
      [(0, "R-9038-000".toList), (1, "R-9038-001".toList)] := by
  have hle : centroid_sum ((0 : Nat), tieB).2 ≤ centroid_sum ((1 : Nat), sampleUnlabeled).2 :=
    le_of_eq rfl
  unfold assign_all
  rw [show unique_codes ([(0, tieB, ['9', '0', '3', '8']),
      (1, sampleUnlabeled, ['9', '0', '3', '8'])].map (fun it => it.2.2)) =
      [['9', '0', '3', '8']] from rfl]
  rw [List.foldl_cons, List.foldl_nil]
  unfold group_step
  rw [show group_features [(0, tieB, ['9', '0', '3', '8']),
      (1, sampleUnlabeled, ['9', '0', '3', '8'])] (['9', '0', '3', '8']) =
      [(0, tieB), (1, sampleUnlabeled)] from rfl]
  rw [sort_group_pair_le hle]
  decide

theorem run_tie_ab :
    process_shapefile BASE_B10 ['R'] 3 [sampleUnlabeled, tieB] =
      Except.ok [⟨147, -20, ['c'], some ("R-9038-000".toList)⟩,
        ⟨147, -20, ['f'], some ("R-9038-001".toList)⟩] := by
  have hcodes : grid_codes BASE_B10 [sampleUnlabeled, tieB] =
      Except.ok [['9', '0', '3', '8'], ['9', '0', '3', '8']] := by
    unfold grid_codes
    rw [List.mapM_cons, code_of_eval sampleUnlabeled encode_grid_b10_147_m20,
      List.mapM_cons, code_of_eval tieB encode_grid_b10_147_m20, List.mapM_nil]
    rfl
  rw [process_shapefile_eval (show init_state BASE_B10 [sampleUnlabeled, tieB] =
    Except.ok emptyState from rfl) hcodes]
  rw [show ([sampleUnlabeled, tieB].enum.zipWith (fun p g => (p.1, p.2, g))
      [['9', '0', '3', '8'], ['9', '0', '3', '8']]) =
      [(0, sampleUnlabeled, ['9', '0', '3', '8']), (1, tieB, ['9', '0', '3', '8'])] from rfl]
  rw [assign_tie_ab]
  decide

theorem run_tie_ba :
    process_shapefile BASE_B10 ['R'] 3 [tieB, sampleUnlabeled] =
      Except.ok [⟨147, -20, ['f'], some ("R-9038-000".toList)⟩,
        ⟨147, -20, ['c'], some ("R-9038-001".toList)⟩] := by
  have hcodes : grid_codes BASE_B10 [tieB, sampleUnlabeled] =
      Except.ok [['9', '0', '3', '8'], ['9', '0', '3', '8']] := by
    unfold grid_codes
    rw [List.mapM_cons, code_of_eval tieB encode_grid_b10_147_m20,
      List.mapM_cons, code_of_eval sampleUnlabeled encode_grid_b10_147_m20, List.mapM_nil]
    rfl
  rw [process_shapefile_eval (show init_state BASE_B10 [tieB, sampleUnlabeled] =
    Except.ok emptyState from rfl) hcodes]
  rw [show ([tieB, sampleUnlabeled].enum.zipWith (fun p g => (p.1, p.2, g))
      [['9', '0', '3', '8'], ['9', '0', '3', '8']]) =
      [(0, tieB, ['9', '0', '3', '8']), (1, sampleUnlabeled, ['9', '0', '3', '8'])] from rfl]
  rw [assign_tie_ba]
  decide

/-! ### The existing-identifier pass is insensitive to row order -/

/-- The three hyphen-separated parts of an existing identifier together with
its decoded counter, when the row registers without raising. -/
def parse_rid (alpha : Str) (f : Feature) : Option (Str × Str × Str × Nat) :=
  match f.reefID with
  | none => none
  | some rid =>
    match split_on_hyphen rid with
    | [p, g, c] =>
      match decode_counter alpha c with
      | some d => some (p, g, c, d)
      | none => none
    | _ => none

/-- The state update of one successfully registered row, as a total
function. -/
def register_ok (alpha : Str) (st : AllocState) (f : Feature) : AllocState :=
  match parse_rid alpha f with
  | some (p, g, c, d) =>
    ⟨setCount st.count p g (max (st.count p g) (d + 1)), addId st.ids p g c⟩
  | none => st

theorem allocState_eq {a b : AllocState} (hc : a.count = b.count) (hi : a.ids = b.ids) :
    a = b := by
  cases a
  cases b
  cases hc
  cases hi
  rfl

theorem setCount_at (f : Str → Str → Nat) (p g : Str) (n : Nat) :
    setCount f p g n p g = n := by
  simp [setCount]

theorem setCount_ne {p g p2 g2 : Str} (f : Str → Str → Nat) (n : Nat)
    (h : ¬(p2 = p ∧ g2 = g)) : setCount f p g n p2 g2 = f p2 g2 := by
  unfold setCount
  rw [if_neg h]

theorem setCount_absorb (f : Str → Str → Nat) (p g : Str) (m n : Nat) :
    setCount (setCount f p g m) p g n = setCount f p g n := by
  funext a b
  simp only [setCount]
  by_cases h1 : a = p ∧ b = g <;> simp [h1]

theorem setCount_swap {p1 g1 p2 g2 : Str} (f : Str → Str → Nat) (m n : Nat)
    (h : ¬(p2 = p1 ∧ g2 = g1)) :
    setCount (setCount f p1 g1 m) p2 g2 n = setCount (setCount f p2 g2 n) p1 g1 m := by
  have h' : ¬(p1 = p2 ∧ g1 = g2) := fun hh => h ⟨hh.1.symm, hh.2.symm⟩
  funext a b
  simp only [setCount]
  by_cases h1 : a = p1 ∧ b = g1
  · by_cases h2 : a = p2 ∧ b = g2
    · exact absurd ⟨h2.1.symm.trans h1.1, h2.2.symm.trans h1.2⟩ h
    · simp [h1, h2, h, h']
  · by_cases h2 : a = p2 ∧ b = g2
    · simp [h1, h2, h, h']
    · simp [h1, h2]

theorem addId_comm_same (f : Str → Str → Finset Str) (p g : Str) (a b : Str) :
    addId (addId f p g a) p g b = addId (addId f p g b) p g a := by
  funext x y
  simp only [addId]
  by_cases h1 : x = p ∧ y = g
  · simp [h1, Finset.Insert.comm]
  · simp [h1]

theorem addId_swap {p1 g1 p2 g2 : Str} (f : Str → Str → Finset Str) (a b : Str)
    (h : ¬(p2 = p1 ∧ g2 = g1)) :
    addId (addId f p1 g1 a) p2 g2 b = addId (addId f p2 g2 b) p1 g1 a := by
  have h' : ¬(p1 = p2 ∧ g1 = g2) := fun hh => h ⟨hh.1.symm, hh.2.symm⟩
  funext x y
  simp only [addId]
  by_cases h1 : x = p1 ∧ y = g1
  · by_cases h2 : x = p2 ∧ y = g2
    · exact absurd ⟨h2.1.symm.trans h1.1, h2.2.symm.trans h1.2⟩ h
    · simp [h1, h2, h, h']
  · by_cases h2 : x = p2 ∧ y = g2
    · simp [h1, h2, h, h']
    · simp [h1, h2]

/-- Registering two rows commutes: the per-key counter maxima and the
occupied-countercode set insertions are order-insensitive. -/
theorem register_ok_comm (alpha : Str) (st : AllocState) (f1 f2 : Feature) :
    register_ok alpha (register_ok alpha st f1) f2 =
      register_ok alpha (register_ok alpha st f2) f1 := by
  unfold register_ok
  cases hp1 : parse_rid alpha f1 with
  | none => cases hp2 : parse_rid alpha f2 with
    | none => rfl
    | some q2 => rfl
  | some q1 =>
    cases hp2 : parse_rid alpha f2 with
    | none => rfl
    | some q2 =>
      obtain ⟨p1, g1, c1, d1⟩ := q1
      obtain ⟨p2, g2, c2, d2⟩ := q2
      dsimp only
      by_cases hk : p2 = p1 ∧ g2 = g1
      · obtain ⟨rfl, rfl⟩ := hk
        apply allocState_eq
        · dsimp only
          rw [setCount_at, setCount_absorb, setCount_at, setCount_absorb,
            Nat.max_right_comm]
        · exact addId_comm_same st.ids p2 g2 c1 c2
      · have hk2 : ¬(p1 = p2 ∧ g1 = g2) := fun hh => hk ⟨hh.1.symm, hh.2.symm⟩
        apply allocState_eq
        · dsimp only
          rw [setCount_ne _ _ hk, setCount_ne _ _ hk2, setCount_swap _ _ _ hk]
        · exact addId_swap st.ids c1 c2 hk

theorem init_step_ok_eq {alpha : Str} {st st1 : AllocState} {f : Feature}
    (h : init_step alpha st f = Except.ok st1) : st1 = register_ok alpha st f := by
  cases hr : f.reefID with
  | none =>
    simp only [init_step, hr] at h
    simp only [register_ok, parse_rid, hr]
    exact (Except.ok.inj h).symm
  | some rid =>
    simp only [init_step, hr, register_existing] at h
    rcases hs : split_on_hyphen rid with _ | ⟨p, _ | ⟨g, _ | ⟨c, _ | ⟨x, xs⟩⟩⟩⟩
    · simp only [hs] at h
      exact Except.noConfusion h
    · simp only [hs] at h
      exact Except.noConfusion h
    · simp only [hs] at h
      exact Except.noConfusion h
    · simp only [hs] at h
      cases hd : decode_counter alpha c with
      | none =>
        simp only [hd] at h
        exact Except.noConfusion h
      | some d =>
        simp only [hd] at h
        simp only [register_ok, parse_rid, hr, hs, hd]
        exact (Except.ok.inj h).symm
    · simp only [hs] at h
      exact Except.noConfusion h

theorem foldlM_init_ok_eq {alpha : Str} :
    ∀ (l : List Feature) (st st' : AllocState),
      l.foldlM (init_step alpha) st = Except.ok st' →
      st' = l.foldl (fun s f => register_ok alpha s f) st := by
  intro l
  induction l with
  | nil =>
    intro st st' h
    exact (Except.ok.inj h).symm
  | cons f l ih =>
    intro st st' h
    have h' : init_step alpha st f >>= (fun s => l.foldlM (init_step alpha) s) =
        Except.ok st' := h
    cases hstep : init_step alpha st f with
    | error e =>
      rw [hstep] at h'
      exact absurd h' (fun hh => Except.noConfusion hh)
    | ok st1 =>
      rw [hstep] at h'
      rw [List.foldl_cons, ← init_step_ok_eq hstep]
      exact ih st1 st' h'

/-- A successful existing-identifier pass reaches the same state on any
permutation of the rows that also succeeds. -/
theorem init_state_perm {alpha : Str} {l1 l2 : List Feature} (hp : List.Perm l2 l1)
    {st1 st2 : AllocState} (h1 : init_state alpha l1 = Except.ok st1)
    (h2 : init_state alpha l2 = Except.ok st2) : st2 = st1 := by
  unfold init_state at h1 h2
  rw [foldlM_init_ok_eq _ _ _ h1, foldlM_init_ok_eq _ _ _ h2]
  exact hp.foldl_eq' (fun x _ y _ z => register_ok_comm alpha z x y) emptyState

/-! ### The assignment pass as per-group lists of (row, counter) pairs -/

/-- The per-feature loop over one sorted group, keeping each assigned row
together with its committed counter. -/
def assign_pairs (alpha pfx : Str) (pad : Nat) (g : Str) :
    AllocState → List (Nat × Feature) → List ((Nat × Feature) × Nat)
  | _, [] => []
  | st, it :: rest =>
    match it.2.reefID with
    | some _ => assign_pairs alpha pfx pad g st rest
    | none =>
      (it, chosen alpha pfx pad g st) ::
        assign_pairs alpha pfx pad g
          ⟨setCount st.count pfx g (chosen alpha pfx pad g st + 1), st.ids⟩ rest

theorem foldl_assign_eq_pairs (alpha pfx : Str) (pad : Nat) (g : Str) :
    ∀ (l : List (Nat × Feature)) (st : AllocState) (acc : List (Nat × Nat)),
      (l.foldl (assign_step alpha pfx pad g) (st, acc)).2 =
        acc ++ (assign_pairs alpha pfx pad g st l).map (fun p => (p.1.1, p.2)) := by
  intro l
  induction l with
  | nil => intro st acc; simp [assign_pairs]
  | cons it l ih =>
    intro st acc
    rw [List.foldl_cons]
    cases hr : it.2.reefID with
    | some rid =>
      have hstep : assign_step alpha pfx pad g (st, acc) it = (st, acc) := by
        unfold assign_step
        rw [hr]
      rw [hstep, ih st acc]
      simp only [assign_pairs, hr]
    | none =>
      have hstep : assign_step alpha pfx pad g (st, acc) it =
          (⟨setCount st.count pfx g (chosen alpha pfx pad g st + 1), st.ids⟩,
            acc ++ [(it.1, chosen alpha pfx pad g st)]) := by
        unfold assign_step
        rw [hr]
      rw [hstep, ih]
      simp only [assign_pairs, hr, List.map_cons, List.append_assoc,
        List.singleton_append]

theorem assign_pairs_congr (alpha pfx : Str) (pad : Nat) (g : Str) :
    ∀ (l : List (Nat × Feature)) (st st' : AllocState),
      st.count pfx g = st'.count pfx g → st.ids pfx g = st'.ids pfx g →
      assign_pairs alpha pfx pad g st l = assign_pairs alpha pfx pad g st' l := by
  intro l
  induction l with
  | nil => intro st st' _ _; rfl
  | cons it l ih =>
    intro st st' hc hi
    have hch : chosen alpha pfx pad g st = chosen alpha pfx pad g st' := by
      unfold chosen
      rw [hc, hi]
    cases hr : it.2.reefID with
    | some rid =>
      simp only [assign_pairs, hr]
      exact ih st st' hc hi
    | none =>
      simp only [assign_pairs, hr, hch]
      refine congrArg _ ?_
      refine ih _ _ ?_ ?_
      · show setCount st.count pfx g (chosen alpha pfx pad g st' + 1) pfx g =
          setCount st'.count pfx g (chosen alpha pfx pad g st' + 1) pfx g
        rw [setCount_at, setCount_at]
      · exact hi

/-- Feature-level view of one group's assignments: only the (pre-filtered)
unlabelled features matter, row indices do not. -/
def assign_features (alpha pfx : Str) (pad : Nat) (g : Str) :
    AllocState → List Feature → List (Feature × Nat)
  | _, [] => []
  | st, f :: rest =>
    (f, chosen alpha pfx pad g st) ::
      assign_features alpha pfx pad g
        ⟨setCount st.count pfx g (chosen alpha pfx pad g st + 1), st.ids⟩ rest

theorem assign_pairs_features (alpha pfx : Str) (pad : Nat) (g : Str) :
    ∀ (l : List (Nat × Feature)) (st : AllocState),
      (assign_pairs alpha pfx pad g st l).map (fun p => (p.1.2, p.2)) =
        assign_features alpha pfx pad g st
          ((l.filter (fun it => it.2.reefID.isNone)).map Prod.snd) := by
  intro l
  induction l with
  | nil => intro st; rfl
  | cons it l ih =>
    intro st
    cases hr : it.2.reefID with
    | some rid =>
      simp only [assign_pairs, hr, List.filter_cons, Option.isNone_some,
        Bool.false_eq_true, if_false]
      exact ih st
    | none =>
      simp only [assign_pairs, hr, List.filter_cons, Option.isNone_none, if_true,
        List.map_cons, assign_features]
      exact congrArg _ (ih _)

theorem assign_pairs_fst_sublist (alpha pfx : Str) (pad : Nat) (g : Str) :
    ∀ (l : List (Nat × Feature)) (st : AllocState),
      List.Sublist ((assign_pairs alpha pfx pad g st l).map Prod.fst) l := by
  intro l
  induction l with
  | nil => intro st; exact List.nil_sublist []
  | cons it l ih =>
    intro st
    cases hr : it.2.reefID with
    | some rid =>
      simp only [assign_pairs, hr]
      exact (ih st).cons it
    | none =>
      simp only [assign_pairs, hr, List.map_cons]
      exact (ih _).cons₂ it

theorem assign_pairs_unlabeled (alpha pfx : Str) (pad : Nat) (g : Str) :
    ∀ (l : List (Nat × Feature)) (st : AllocState),
      ∀ p ∈ assign_pairs alpha pfx pad g st l, p.1 ∈ l ∧ p.1.2.reefID = none := by
  intro l
  induction l with
  | nil => intro st p hp; exact absurd hp (List.not_mem_nil p)
  | cons it l ih =>
    intro st p hp
    cases hr : it.2.reefID with
    | some rid =>
      simp only [assign_pairs, hr] at hp
      obtain ⟨hm, hn⟩ := ih st p hp
      exact ⟨List.mem_cons_of_mem it hm, hn⟩
    | none =>
      simp only [assign_pairs, hr] at hp
      rcases List.mem_cons.mp hp with rfl | hp2
      · exact ⟨List.mem_cons_self it l, hr⟩
      · obtain ⟨hm, hn⟩ := ih _ p hp2
        exact ⟨List.mem_cons_of_mem it hm, hn⟩

/-- One grid cell's (row index, new identifier) assignments, computed from
the pass's starting state. -/
def group_assign (alpha pfx : Str) (pad : Nat) (st0 : AllocState)
    (items : List (Nat × Feature × Str)) (g : Str) : List (Nat × Str) :=
  (assign_pairs alpha pfx pad g st0 (sort_group (group_features items g))).map
    (fun p => (p.1.1, reef_id pfx g (encode_counter alpha p.2 pad)))

theorem foldl_assign_count_ne (alpha pfx : Str) (pad : Nat) (g : Str) :
    ∀ (l : List (Nat × Feature)) (acc : AllocState × List (Nat × Nat)) (g' : Str), g' ≠ g →
      ((l.foldl (assign_step alpha pfx pad g) acc).1).count pfx g' = (acc.1).count pfx g' := by
  intro l
  induction l with
  | nil => intro acc g' _; rfl
  | cons it l ih =>
    intro acc g' hne
    rw [List.foldl_cons, ih _ g' hne]
    cases hr : it.2.reefID with
    | some rid =>
      have hstep : assign_step alpha pfx pad g acc it = acc := by
        unfold assign_step
        rw [hr]
      rw [hstep]
    | none =>
      have hstep : (assign_step alpha pfx pad g acc it).1 =
          ⟨setCount acc.1.count pfx g (chosen alpha pfx pad g acc.1 + 1), acc.1.ids⟩ := by
        unfold assign_step
        rw [hr]
      rw [hstep]
      exact setCount_ne _ _ (fun hh => hne hh.2)

theorem foldl_groups_eq_bind (alpha pfx : Str) (pad : Nat)
    (items : List (Nat × Feature × Str)) (st0 : AllocState) :
    ∀ (gs : List Str), gs.Nodup → ∀ (st : AllocState) (l : List (Nat × Str)),
      (∀ g ∈ gs, st.count pfx g = st0.count pfx g ∧ st.ids pfx g = st0.ids pfx g) →
      (gs.foldl (group_step alpha pfx pad items) (st, l)).2 =
        l ++ gs.bind (group_assign alpha pfx pad st0 items) := by
  intro gs
  induction gs with
  | nil => intro _ st l _; simp
  | cons g gs ih =>
    intro hnd st l hst
    obtain ⟨hg, hnd2⟩ := List.nodup_cons.mp hnd
    rw [List.foldl_cons]
    have hgrp2 : (assign_group alpha pfx pad g st (sort_group (group_features items g))).2 =
        (assign_pairs alpha pfx pad g st (sort_group (group_features items g))).map
          (fun p => (p.1.1, p.2)) := by
      unfold assign_group
      rw [foldl_assign_eq_pairs]
      exact List.nil_append _
    have hpairs : assign_pairs alpha pfx pad g st (sort_group (group_features items g)) =
        assign_pairs alpha pfx pad g st0 (sort_group (group_features items g)) :=
      assign_pairs_congr alpha pfx pad g _ st st0
        (hst g (List.mem_cons_self g gs)).1 (hst g (List.mem_cons_self g gs)).2
    have hstep : group_step alpha pfx pad items (st, l) g =
        ((assign_group alpha pfx pad g st (sort_group (group_features items g))).1,
          l ++ group_assign alpha pfx pad st0 items g) := by
      unfold group_step
      rw [hgrp2, hpairs]
      refine congrArg _ (congrArg _ ?_)
      unfold group_assign
      rw [List.map_map]
      rfl
    rw [hstep]
    rw [ih hnd2 _ _ ?_]
    · rw [List.append_assoc]
      rfl
    · intro g' hg'
      have hne : g' ≠ g := fun hh => hg (hh ▸ hg')
      constructor
      · have h1 : ((assign_group alpha pfx pad g st
            (sort_group (group_features items g))).1).count pfx g' = st.count pfx g' :=
          foldl_assign_count_ne alpha pfx pad g _ (st, []) g' hne
        rw [h1]
        exact (hst g' (List.mem_cons_of_mem g hg')).1
      · have h2 : ((assign_group alpha pfx pad g st
            (sort_group (group_features items g))).1).ids = st.ids :=
          assign_group_ids alpha pfx pad g st _
        rw [h2]
        exact (hst g' (List.mem_cons_of_mem g hg')).2

theorem assign_all_eq_bind (alpha pfx : Str) (pad : Nat) (st0 : AllocState)
    (items : List (Nat × Feature × Str)) :
    assign_all alpha pfx pad st0 items =
      (unique_codes (items.map (fun it => it.2.2))).bind
        (group_assign alpha pfx pad st0 items) := by
  unfold assign_all
  rw [foldl_groups_eq_bind alpha pfx pad items st0 _ (unique_codes_nodup _) st0 []
    (fun g _ => ⟨rfl, rfl⟩)]
  exact List.nil_append _

/-! ### Pointwise structure of the (row, feature, code) triples -/

theorem items_map_fst {input : List Feature} {codes : List Str}
    (hlen : codes.length = input.length) :
    (input.enum.zipWith (fun p g => (p.1, p.2, g)) codes).map (fun it => it.1) =
      List.range input.length := by
  apply List.ext_getElem?
  intro i
  rw [List.getElem?_map, List.getElem?_zipWith, List.getElem?_enum]
  by_cases hi : i < input.length
  · obtain ⟨f, hf⟩ : ∃ f, input[i]? = some f :=
      ⟨input[i], List.getElem?_eq_getElem hi⟩
    obtain ⟨c, hc⟩ : ∃ c, codes[i]? = some c :=
      ⟨codes.get ⟨i, hlen ▸ hi⟩, List.getElem?_eq_getElem (hlen ▸ hi)⟩
    rw [hf, hc, List.getElem?_range hi]
    rfl
  · have h1 : input[i]? = none := List.getElem?_eq_none (Nat.le_of_not_lt hi)
    have h2 : (List.range input.length)[i]? = none := by
      rw [List.getElem?_eq_none]
      rw [List.length_range]
      exact Nat.le_of_not_lt hi
    rw [h1, h2]
    rfl

theorem items_map_feature {input : List Feature} {codes : List Str}
    (hlen : codes.length = input.length) :
    (input.enum.zipWith (fun p g => (p.1, p.2, g)) codes).map (fun it => it.2.1) = input := by
  apply List.ext_getElem?
  intro i
  rw [List.getElem?_map, List.getElem?_zipWith, List.getElem?_enum]
  by_cases hi : i < input.length
  · obtain ⟨f, hf⟩ : ∃ f, input[i]? = some f :=
      ⟨input[i], List.getElem?_eq_getElem hi⟩
    obtain ⟨c, hc⟩ : ∃ c, codes[i]? = some c :=
      ⟨codes.get ⟨i, hlen ▸ hi⟩, List.getElem?_eq_getElem (hlen ▸ hi)⟩
    rw [hf, hc]
    simp
  · have h1 : input[i]? = none := List.getElem?_eq_none (Nat.le_of_not_lt hi)
    rw [h1]
    rfl

theorem items_map_code {input : List Feature} {codes : List Str}
    (hlen : codes.length = input.length) :
    (input.enum.zipWith (fun p g => (p.1, p.2, g)) codes).map (fun it => it.2.2) = codes := by
  apply List.ext_getElem?
  intro i
  rw [List.getElem?_map, List.getElem?_zipWith, List.getElem?_enum]
  by_cases hi : i < input.length
  · obtain ⟨f, hf⟩ : ∃ f, input[i]? = some f :=
      ⟨input[i], List.getElem?_eq_getElem hi⟩
    obtain ⟨c, hc⟩ : ∃ c, codes[i]? = some c :=
      ⟨codes.get ⟨i, hlen ▸ hi⟩, List.getElem?_eq_getElem (hlen ▸ hi)⟩
    rw [hf, hc]
    simp
  · have h1 : input[i]? = none := List.getElem?_eq_none (Nat.le_of_not_lt hi)
    have h2 : codes[i]? = none := by
      rw [List.getElem?_eq_none]
      rw [hlen]
      exact Nat.le_of_not_lt hi
    rw [h1, h2]
    rfl

theorem items_fst_inj {input : List Feature} {codes : List Str} {i : Nat}
    {x y : Feature × Str}
    (hx : (i, x) ∈ input.enum.zipWith (fun p g => (p.1, p.2, g)) codes)
    (hy : (i, y) ∈ input.enum.zipWith (fun p g => (p.1, p.2, g)) codes) : x = y := by
  obtain ⟨hx1, hx2⟩ := mem_items_spec hx
  obtain ⟨hy1, hy2⟩ := mem_items_spec hy
  have h1 : x.1 = y.1 := Option.some_inj.mp (hx1.symm.trans hy1)
  have h2 : x.2 = y.2 := Option.some_inj.mp (hx2.symm.trans hy2)
  cases x
  cases y
  cases h1
  cases h2
  rfl

theorem group_assign_fst {alpha pfx : Str} {pad : Nat} {st0 : AllocState}
    {items : List (Nat × Feature × Str)} (g : Str) :
    (group_assign alpha pfx pad st0 items g).map (fun a => a.1) =
      (assign_pairs alpha pfx pad g st0 (sort_group (group_features items g))).map
        (fun p => p.1.1) := by
  unfold group_assign
  rw [List.map_map]
  rfl

theorem group_features_fst_nodup {input : List Feature} {codes : List Str}
    (hlen : codes.length = input.length) (g : Str) :
    ((group_features (input.enum.zipWith (fun p g => (p.1, p.2, g)) codes) g).map
      (fun it => it.1)).Nodup := by
  unfold group_features
  rw [List.map_map]
  have hsub : List.Sublist (((input.enum.zipWith (fun p g => (p.1, p.2, g)) codes).filter
      (fun it => decide (it.2.2 = g))).map (fun it => it.1))
      ((input.enum.zipWith (fun p g => (p.1, p.2, g)) codes).map (fun it => it.1)) :=
    (List.filter_sublist _).map _
  rw [items_map_fst hlen] at hsub
  exact ((List.nodup_range input.length).sublist hsub).imp (fun h => h) |>.imp (fun h => h)

theorem assign_pairs_fst_nodup {alpha pfx : Str} {pad : Nat} {st0 : AllocState}
    {input : List Feature} {codes : List Str}
    (hlen : codes.length = input.length) (g : Str) :
    ((assign_pairs alpha pfx pad g st0 (sort_group (group_features
      (input.enum.zipWith (fun p g => (p.1, p.2, g)) codes) g))).map
      (fun p => p.1.1)).Nodup := by
  have hperm : List.Perm ((sort_group (group_features
      (input.enum.zipWith (fun p g => (p.1, p.2, g)) codes) g)).map (fun it => it.1))
      ((group_features (input.enum.zipWith (fun p g => (p.1, p.2, g)) codes) g).map
        (fun it => it.1)) :=
    (List.perm_insertionSort _ _).map _
  have hnd : ((sort_group (group_features
      (input.enum.zipWith (fun p g => (p.1, p.2, g)) codes) g)).map (fun it => it.1)).Nodup :=
    hperm.nodup_iff.mpr (group_features_fst_nodup hlen g)
  have hsub : List.Sublist ((assign_pairs alpha pfx pad g st0 (sort_group (group_features
      (input.enum.zipWith (fun p g => (p.1, p.2, g)) codes) g))).map (fun p => p.1.1))
      ((sort_group (group_features
        (input.enum.zipWith (fun p g => (p.1, p.2, g)) codes) g)).map (fun it => it.1)) := by
    have h1 := (assign_pairs_fst_sublist alpha pfx pad g (sort_group (group_features
      (input.enum.zipWith (fun p g => (p.1, p.2, g)) codes) g)) st0).map (fun it => it.1)
    rw [List.map_map] at h1
    exact h1
  exact hnd.sublist hsub

theorem assign_all_fst_nodup {alpha pfx : Str} {pad : Nat} {st0 : AllocState}
    {input : List Feature} {codes : List Str}
    (hlen : codes.length = input.length) :
    ((assign_all alpha pfx pad st0
      (input.enum.zipWith (fun p g => (p.1, p.2, g)) codes)).map (fun a => a.1)).Nodup := by
  rw [assign_all_eq_bind, List.map_bind]
  rw [List.nodup_bind]
  constructor
  · intro g _
    rw [group_assign_fst]
    exact assign_pairs_fst_nodup hlen g
  · have hnd := unique_codes_nodup ((input.enum.zipWith (fun p g => (p.1, p.2, g)) codes).map
      (fun it => it.2.2))
    refine hnd.imp_of_mem ?_
    intro g1 g2 hg1 hg2 hne
    intro i hi1 hi2
    have hj1 : i ∈ (group_assign alpha pfx pad st0
        (input.enum.zipWith (fun p g => (p.1, p.2, g)) codes) g1).map (fun a => a.1) := hi1
    have hj2 : i ∈ (group_assign alpha pfx pad st0
        (input.enum.zipWith (fun p g => (p.1, p.2, g)) codes) g2).map (fun a => a.1) := hi2
    rw [group_assign_fst] at hj1 hj2
    rcases List.mem_map.1 hj1 with ⟨p1, hp1, hpe1⟩
    rcases List.mem_map.1 hj2 with ⟨p2, hp2, hpe2⟩
    have hm1 : p1.1 ∈ sort_group (group_features
        (input.enum.zipWith (fun p g => (p.1, p.2, g)) codes) g1) :=
      (assign_pairs_unlabeled alpha pfx pad g1 _ st0 p1 hp1).1
    have hm2 : p2.1 ∈ sort_group (group_features
        (input.enum.zipWith (fun p g => (p.1, p.2, g)) codes) g2) :=
      (assign_pairs_unlabeled alpha pfx pad g2 _ st0 p2 hp2).1
    have hi1 : (p1.1.1, p1.1.2, g1) ∈ input.enum.zipWith (fun p g => (p.1, p.2, g)) codes :=
      mem_group_features ((List.perm_insertionSort _ _).mem_iff.mp hm1)
    have hi2 : (p2.1.1, p2.1.2, g2) ∈ input.enum.zipWith (fun p g => (p.1, p.2, g)) codes :=
      mem_group_features ((List.perm_insertionSort _ _).mem_iff.mp hm2)
    rw [← hpe2] at hpe1
    rw [hpe1] at hi1
    have := items_fst_inj hi1 hi2
    exact hne (congrArg Prod.snd this)

theorem lookup_assignment_of_mem_nodup :
    ∀ {asg : List (Nat × Str)} {i : Nat} {r : Str},
      (i, r) ∈ asg → ((asg.map (fun a => a.1)).Nodup) →
      lookup_assignment asg i = some r := by
  intro asg
  induction asg with
  | nil => intro i r hmem _; exact absurd hmem (List.not_mem_nil _)
  | cons a asg ih =>
    intro i r hmem hnd
    rw [List.map_cons, List.nodup_cons] at hnd
    rcases List.mem_cons.mp hmem with rfl | hmem2
    · unfold lookup_assignment
      rw [List.find?_cons_of_pos _ (by simp)]
      rfl
    · have hne : a.1 ≠ i := by
        intro hh
        exact hnd.1 (hh ▸ List.mem_map.2 ⟨(i, r), hmem2, rfl⟩)
      unfold lookup_assignment
      rw [List.find?_cons_of_neg _ (by simp [hne])]
      exact ih hmem2 hnd.2

/-! ### A successful run as a multiset over its rows -/

/-- The output row for input row `i`: the row's feature, overwritten with the
new identifier when row `i` received one (out-of-range indices never arise). -/
def assigned_feature (input : List Feature) (asg : List (Nat × Str)) (i : Nat) : Feature :=
  match input[i]? with
  | some f =>
    match lookup_assignment asg i with
    | some rid => { f with reefID := some rid }
    | none => f
  | none => ⟨0, 0, [], none⟩

/-- `assigned_feature` over an enumerated row. -/
def row_map (input : List Feature) (asg : List (Nat × Str)) : (Nat × Feature) → Feature :=
  fun p => assigned_feature input asg p.1

/-- One grid cell's newly labelled features, each carrying its new
identifier. -/
def new_features (alpha pfx : Str) (pad : Nat) (st0 : AllocState)
    (items : List (Nat × Feature × Str)) (g : Str) : List Feature :=
  (assign_pairs alpha pfx pad g st0 (sort_group (group_features items g))).map
    (fun p => { p.1.2 with reefID := some (reef_id pfx g (encode_counter alpha p.2 pad)) })

theorem enumFrom_filter_some :
    ∀ (l : List Feature) (n : Nat),
      ((List.enumFrom n l).filter (fun p => p.2.reefID.isSome)).map Prod.snd =
        l.filter (fun f => f.reefID.isSome) := by
  intro l
  induction l with
  | nil => intro n; rfl
  | cons f l ih =>
    intro n
    rw [show List.enumFrom n (f :: l) = (n, f) :: List.enumFrom (n + 1) l from rfl]
    cases hr : f.reefID with
    | some rid => simp [List.filter_cons, hr, ih]
    | none => simp [List.filter_cons, hr, ih]

theorem enumFrom_filter_labeled :
    ∀ (l : List Feature) (n : Nat),
      ((List.enumFrom n l).filter (fun p => !p.2.reefID.isNone)).map Prod.snd =
        l.filter (fun f => !f.reefID.isNone) := by
  intro l n
  have h1 : (fun p : Nat × Feature => !p.2.reefID.isNone) =
      (fun p : Nat × Feature => p.2.reefID.isSome) := by
    funext p
    cases p.2.reefID <;> rfl
  have h2 : (fun f : Feature => !f.reefID.isNone) = (fun f : Feature => f.reefID.isSome) := by
    funext f
    cases f.reefID <;> rfl
  rw [h1, h2]
  exact enumFrom_filter_some l n

/-- A successful run's output, as a multiset: the newly labelled features of
every grid cell (computed per cell from the initial state) together with the
untouched already-labelled rows. -/
theorem run_perm_decomp {alpha : Str} (hv : valid_alphabet alpha) {pfx : Str} {pad : Nat}
    {input out : List Feature} {st0 : AllocState} {codes : List Str}
    (hinit : init_state alpha input = Except.ok st0)
    (hcodes : grid_codes alpha input = Except.ok codes)
    (hrun : process_shapefile alpha pfx pad input = Except.ok out) :
    List.Perm out
      ((unique_codes codes).bind (new_features alpha pfx pad st0
        (input.enum.zipWith (fun p g => (p.1, p.2, g)) codes)) ++
       input.filter (fun f => !f.reefID.isNone)) := by
  obtain ⟨st0', codes', hinit', hcodes', hout⟩ := process_shapefile_ok hrun
  rw [hinit] at hinit'
  rw [hcodes] at hcodes'
  obtain rfl : st0 = st0' := Except.ok.inj hinit'
  obtain rfl : codes = codes' := Except.ok.inj hcodes'
  have hlen : codes.length = input.length := (grid_codes_spec input codes hcodes).1
  have hndasg : ((assign_all alpha pfx pad st0
      (input.enum.zipWith (fun p g => (p.1, p.2, g)) codes)).map (fun a => a.1)).Nodup :=
    assign_all_fst_nodup hlen
  have hbind : assign_all alpha pfx pad st0
      (input.enum.zipWith (fun p g => (p.1, p.2, g)) codes) =
      (unique_codes codes).bind (group_assign alpha pfx pad st0
        (input.enum.zipWith (fun p g => (p.1, p.2, g)) codes)) := by
    rw [assign_all_eq_bind, items_map_code hlen]
  have hout1 : out = input.enum.map (row_map input (assign_all alpha pfx pad st0
      (input.enum.zipWith (fun p g => (p.1, p.2, g)) codes))) := by
    rw [hout]
    unfold apply_assignments
    refine List.map_congr_left ?_
    intro p hp
    have hip : input[p.1]? = some p.2 := List.mem_enum_iff_getElem?.mp hp
    simp only [row_map, assigned_feature, hip]
  have hperm1 : List.Perm out
      ((input.enum.filter (fun p => p.2.reefID.isNone)).map (row_map input
        (assign_all alpha pfx pad st0 (input.enum.zipWith (fun p g => (p.1, p.2, g)) codes))) ++
       (input.enum.filter (fun p => !p.2.reefID.isNone)).map (row_map input
        (assign_all alpha pfx pad st0 (input.enum.zipWith (fun p g => (p.1, p.2, g)) codes)))) := by
    rw [hout1]
    have h := (List.filter_append_perm (fun p : Nat × Feature => p.2.reefID.isNone)
      input.enum).map (row_map input (assign_all alpha pfx pad st0
        (input.enum.zipWith (fun p g => (p.1, p.2, g)) codes)))
    rw [List.map_append] at h
    exact h.symm
  have hlab : (input.enum.filter (fun p => !p.2.reefID.isNone)).map (row_map input
      (assign_all alpha pfx pad st0 (input.enum.zipWith (fun p g => (p.1, p.2, g)) codes))) =
      input.filter (fun f => !f.reefID.isNone) := by
    have h1 : (input.enum.filter (fun p => !p.2.reefID.isNone)).map (row_map input
        (assign_all alpha pfx pad st0 (input.enum.zipWith (fun p g => (p.1, p.2, g)) codes))) =
        (input.enum.filter (fun p => !p.2.reefID.isNone)).map Prod.snd := by
      refine List.map_congr_left ?_
      intro p hp
      obtain ⟨hpe, hpf⟩ := List.mem_filter.mp hp
      have hip : input[p.1]? = some p.2 := List.mem_enum_iff_getElem?.mp hpe
      have hlook : lookup_assignment (assign_all alpha pfx pad st0
          (input.enum.zipWith (fun p g => (p.1, p.2, g)) codes)) p.1 = none := by
        apply lookup_assignment_eq_none
        intro x hx hxe
        obtain ⟨g, hg, it, hit, hnone, hfst, -⟩ := assign_all_sound hv pfx pad st0 _ x hx
        obtain ⟨hin0, -⟩ := mem_items_spec (mem_group_features hit)
        have hin : input[it.1]? = some it.2 := hin0
        rw [← hfst, hxe] at hin
        have hfeq : it.2 = p.2 := Option.some_inj.mp (hin.symm.trans hip)
        rw [hfeq] at hnone
        rw [hnone] at hpf
        simp at hpf
      simp only [row_map, assigned_feature, hip, hlook]
    rw [h1]
    exact enumFrom_filter_labeled input 0
  have hgmap : ∀ g ∈ unique_codes codes,
      new_features alpha pfx pad st0 (input.enum.zipWith (fun p g => (p.1, p.2, g)) codes) g =
        ((assign_pairs alpha pfx pad g st0 (sort_group (group_features
          (input.enum.zipWith (fun p g => (p.1, p.2, g)) codes) g))).map
          (fun p => p.1.1)).map (assigned_feature input (assign_all alpha pfx pad st0
            (input.enum.zipWith (fun p g => (p.1, p.2, g)) codes))) := by
    intro g hg
    unfold new_features
    rw [List.map_map]
    refine List.map_congr_left ?_
    intro q hq
    obtain ⟨hmem, hnone⟩ := assign_pairs_unlabeled alpha pfx pad g _ st0 q hq
    have hmem2 : q.1 ∈ group_features
        (input.enum.zipWith (fun p g => (p.1, p.2, g)) codes) g :=
      (List.perm_insertionSort _ _).mem_iff.mp hmem
    obtain ⟨hin, -⟩ := mem_items_spec (mem_group_features hmem2)
    have hmemasg : (q.1.1, reef_id pfx g (encode_counter alpha q.2 pad)) ∈
        assign_all alpha pfx pad st0
          (input.enum.zipWith (fun p g => (p.1, p.2, g)) codes) := by
      rw [hbind]
      refine List.mem_bind.mpr ⟨g, hg, ?_⟩
      unfold group_assign
      exact List.mem_map.2 ⟨q, hq, rfl⟩
    have hlook := lookup_assignment_of_mem_nodup hmemasg hndasg
    show _ = assigned_feature input (assign_all alpha pfx pad st0
      (input.enum.zipWith (fun p g => (p.1, p.2, g)) codes)) q.1.1
    simp only [assigned_feature, hin, hlook]
  have hidx : List.Perm
      ((unique_codes codes).bind (fun g => (assign_pairs alpha pfx pad g st0
        (sort_group (group_features
          (input.enum.zipWith (fun p g => (p.1, p.2, g)) codes) g))).map (fun p => p.1.1)))
      ((input.enum.filter (fun p => p.2.reefID.isNone)).map Prod.fst) := by
    refine (List.perm_ext_iff_of_nodup ?_ ?_).mpr ?_
    · have heq : (unique_codes codes).bind (fun g => (assign_pairs alpha pfx pad g st0
          (sort_group (group_features
            (input.enum.zipWith (fun p g => (p.1, p.2, g)) codes) g))).map (fun p => p.1.1)) =
          (assign_all alpha pfx pad st0
            (input.enum.zipWith (fun p g => (p.1, p.2, g)) codes)).map (fun a => a.1) := by
        rw [hbind, List.map_bind]
        refine (List.bind_congr ?_).symm
        intro g _
        exact group_assign_fst g
      rw [heq]
      exact hndasg
    · have hsub : List.Sublist
          ((input.enum.filter (fun p => p.2.reefID.isNone)).map Prod.fst)
          (input.enum.map Prod.fst) := (List.filter_sublist _).map _
      rw [List.enum_map_fst] at hsub
      exact (List.nodup_range _).sublist hsub
    · intro i
      constructor
      · intro hi
        rcases List.mem_bind.1 hi with ⟨g, hg, hig⟩
        rcases List.mem_map.1 hig with ⟨q, hq, rfl⟩
        obtain ⟨hmem, hnone⟩ := assign_pairs_unlabeled alpha pfx pad g _ st0 q hq
        have hmem2 := (List.perm_insertionSort _ _).mem_iff.mp hmem
        obtain ⟨hin, -⟩ := mem_items_spec (mem_group_features hmem2)
        refine List.mem_map.2 ⟨(q.1.1, q.1.2), ?_, rfl⟩
        refine List.mem_filter.mpr ⟨List.mem_enum_iff_getElem?.mpr hin, ?_⟩
        simp [hnone]
      · intro hi
        rcases List.mem_map.1 hi with ⟨p, hp, rfl⟩
        obtain ⟨hpe, hpf⟩ := List.mem_filter.mp hp
        have hip : input[p.1]? = some p.2 := List.mem_enum_iff_getElem?.mp hpe
        have hnone : p.2.reefID = none := Option.isNone_iff_eq_none.mp hpf
        obtain ⟨hlt, -⟩ := List.getElem?_eq_some_iff.mp hip
        have hcp : codes[p.1]? = some (codes.get ⟨p.1, hlen ▸ hlt⟩) :=
          List.getElem?_eq_getElem (hlen ▸ hlt)
        have hmemitems := items_getElem hip hcp
        obtain ⟨r, hr⟩ := assign_all_covers alpha pfx pad st0
          ((p.1, p.2, codes.get ⟨p.1, hlen ▸ hlt⟩)) hmemitems hnone
        rw [hbind] at hr
        rcases List.mem_bind.1 hr with ⟨g, hg, hrg⟩
        unfold group_assign at hrg
        rcases List.mem_map.1 hrg with ⟨q, hq, hqe⟩
        refine List.mem_bind.2 ⟨g, hg, List.mem_map.2 ⟨q, hq, ?_⟩⟩
        have h5 := congrArg Prod.fst hqe
        exact h5
  have hnewmap : (unique_codes codes).bind (new_features alpha pfx pad st0
      (input.enum.zipWith (fun p g => (p.1, p.2, g)) codes)) =
      ((unique_codes codes).bind (fun g => (assign_pairs alpha pfx pad g st0
        (sort_group (group_features
          (input.enum.zipWith (fun p g => (p.1, p.2, g)) codes) g))).map
          (fun p => p.1.1))).map (assigned_feature input (assign_all alpha pfx pad st0
            (input.enum.zipWith (fun p g => (p.1, p.2, g)) codes))) := by
    rw [List.map_bind]
    exact List.bind_congr hgmap
  have hXrow : ((input.enum.filter (fun p => p.2.reefID.isNone)).map Prod.fst).map
      (assigned_feature input (assign_all alpha pfx pad st0
        (input.enum.zipWith (fun p g => (p.1, p.2, g)) codes))) =
      (input.enum.filter (fun p => p.2.reefID.isNone)).map (row_map input
        (assign_all alpha pfx pad st0
          (input.enum.zipWith (fun p g => (p.1, p.2, g)) codes))) := by
    rw [List.map_map]
    rfl
  have hunl : List.Perm
      ((input.enum.filter (fun p => p.2.reefID.isNone)).map (row_map input
        (assign_all alpha pfx pad st0
          (input.enum.zipWith (fun p g => (p.1, p.2, g)) codes))))
      ((unique_codes codes).bind (new_features alpha pfx pad st0
        (input.enum.zipWith (fun p g => (p.1, p.2, g)) codes))) := by
    rw [hnewmap, ← hXrow]
    exact (hidx.map _).symm
  exact hperm1.trans (hunl.append (hlab ▸ List.Perm.refl _))

/-! ### The sorted unlabelled features of one grid cell -/

theorem mem_codes_iff {alpha : Str} {input : List Feature} {codes : List Str}
    (hcodes : grid_codes alpha input = Except.ok codes) {g : Str} :
    g ∈ codes ↔ ∃ f ∈ input, encode_grid alpha f.lon f.lat = some g := by
  obtain ⟨hlen, hspec⟩ := grid_codes_spec input codes hcodes
  constructor
  · intro hg
    rcases List.mem_iff_getElem?.1 hg with ⟨k, hk⟩
    have hklt : k < codes.length := (List.getElem?_eq_some_iff.mp hk).1
    have hkin : k < input.length := hlen ▸ hklt
    have hfk : input[k]? = some (input.get ⟨k, hkin⟩) := List.getElem?_eq_getElem hkin
    obtain ⟨c, hc, henc⟩ := hspec k _ hfk
    have hcg : c = g := Option.some_inj.mp (hc.symm.trans hk)
    exact ⟨input.get ⟨k, hkin⟩, List.getElem_mem hkin, hcg ▸ henc⟩
  · rintro ⟨f, hf, henc⟩
    rcases List.mem_iff_getElem?.1 hf with ⟨k, hk⟩
    obtain ⟨c, hc, henc2⟩ := hspec k f hk
    have hcg : c = g := Option.some_inj.mp (henc2.symm.trans henc)
    subst hcg
    exact List.mem_iff_getElem?.2 ⟨k, hc⟩

theorem filter_comp_map {α β : Type} (f : α → β) (q : β → Bool) :
    ∀ l : List α, (l.filter (fun a => q (f a))).map f = (l.map f).filter q := by
  intro l
  induction l with
  | nil => rfl
  | cons a l ih =>
    rw [List.map_cons, List.filter_cons, List.filter_cons]
    cases hq : q (f a)
    · simp [hq, ih]
    · simp [hq, ih]

theorem group_features_cons (it : Nat × Feature × Str)
    (items : List (Nat × Feature × Str)) (g : Str) :
    group_features (it :: items) g =
      if it.2.2 = g then (it.1, it.2.1) :: group_features items g
      else group_features items g := by
  unfold group_features
  rw [List.filter_cons]
  by_cases hc : it.2.2 = g
  · simp [hc]
  · simp [hc]

theorem group_filter_unl (g : Str) :
    ∀ (items : List (Nat × Feature × Str)),
      ((group_features items g).filter (fun it => it.2.reefID.isNone)).map Prod.snd =
        (items.filter (fun it => decide (it.2.2 = g) && it.2.1.reefID.isNone)).map
          (fun it => it.2.1) := by
  intro items
  induction items with
  | nil => rfl
  | cons it items ih =>
    rw [group_features_cons]
    by_cases hc : it.2.2 = g
    · rw [if_pos hc, List.filter_cons, List.filter_cons]
      cases hn : it.2.1.reefID with
      | some rid => simp [hn, hc, ih]
      | none => simp [hn, hc, ih]
    · rw [if_neg hc, List.filter_cons]
      simp [hc, ih]

theorem sort_group_sorted (l : List (Nat × Feature)) :
    (sort_group l).Sorted (fun a b => centroid_sum a.2 ≤ centroid_sum b.2) := by
  unfold sort_group
  haveI h1 : IsTotal (Nat × Feature) (fun a b => centroid_sum a.2 ≤ centroid_sum b.2) :=
    ⟨fun a b => le_total _ _⟩
  haveI h2 : IsTrans (Nat × Feature) (fun a b => centroid_sum a.2 ≤ centroid_sum b.2) :=
    ⟨fun a b c hab hbc => le_trans hab hbc⟩
  exact List.sorted_insertionSort _ l

theorem sorted_unl_sorted (items : List (Nat × Feature × Str)) (g : Str) :
    (((sort_group (group_features items g)).filter
      (fun it => it.2.reefID.isNone)).map Prod.snd).Sorted
      (fun f1 f2 => centroid_sum f1 ≤ centroid_sum f2) := by
  have h1 := sort_group_sorted (group_features items g)
  have h2 : ((sort_group (group_features items g)).filter
      (fun it => it.2.reefID.isNone)).Pairwise
      (fun a b => centroid_sum a.2 ≤ centroid_sum b.2) :=
    h1.sublist (List.filter_sublist _)
  exact List.pairwise_map.mpr h2

/-- Two sorted lists that are permutations of each other and whose sort keys
are injective on their members are equal. -/
theorem eq_of_perm_sorted_key {α : Type} (key : α → ℚ) :
    ∀ (l1 l2 : List α), List.Perm l1 l2 →
      l1.Pairwise (fun a b => key a ≤ key b) → l2.Pairwise (fun a b => key a ≤ key b) →
      (∀ a ∈ l1, ∀ b ∈ l1, key a = key b → a = b) → l1 = l2 := by
  intro l1
  induction l1 with
  | nil =>
    intro l2 hp _ _ _
    exact (hp.symm.eq_nil).symm
  | cons a t1 ih =>
    intro l2 hp hs1 hs2 hkey
    cases l2 with
    | nil => exact absurd hp (by simp)
    | cons b t2 =>
      have hab : a = b := by
        by_contra hne
        have hbmem : b ∈ a :: t1 := hp.symm.subset (List.mem_cons_self b t2)
        have hamem : a ∈ b :: t2 := hp.subset (List.mem_cons_self a t1)
        have hb1 : b ∈ t1 := by
          rcases List.mem_cons.mp hbmem with h | h
          · exact absurd h.symm hne
          · exact h
        have ha2 : a ∈ t2 := by
          rcases List.mem_cons.mp hamem with h | h
          · exact absurd h hne
          · exact h
        have hle1 : key a ≤ key b := (List.pairwise_cons.mp hs1).1 b hb1
        have hle2 : key b ≤ key a := (List.pairwise_cons.mp hs2).1 a ha2
        exact hne (hkey a (List.mem_cons_self a t1) b hbmem (le_antisymm hle1 hle2))
      subst hab
      have hp2 := hp.cons_inv
      have ht := ih t2 hp2 (List.pairwise_cons.mp hs1).2 (List.pairwise_cons.mp hs2).2
        (fun x hx y hy hk =>
          hkey x (List.mem_cons_of_mem a hx) y (List.mem_cons_of_mem a hy) hk)
      rw [ht]

theorem sorted_unl_perm {alpha : Str} {input : List Feature} {codes : List Str}
    (hcodes : grid_codes alpha input = Except.ok codes) (g : Str) :
    List.Perm
      (((sort_group (group_features
        (input.enum.zipWith (fun p g => (p.1, p.2, g)) codes) g)).filter
        (fun it => it.2.reefID.isNone)).map Prod.snd)
      (input.filter (fun f => decide (encode_grid alpha f.lon f.lat = some g) &&
        f.reefID.isNone)) := by
  have hlen : codes.length = input.length := (grid_codes_spec input codes hcodes).1
  have h1 : List.Perm
      (((sort_group (group_features
        (input.enum.zipWith (fun p g => (p.1, p.2, g)) codes) g)).filter
        (fun it => it.2.reefID.isNone)).map Prod.snd)
      (((group_features
        (input.enum.zipWith (fun p g => (p.1, p.2, g)) codes) g).filter
        (fun it => it.2.reefID.isNone)).map Prod.snd) :=
    ((List.perm_insertionSort _ _).filter _).map _
  have h2 := group_filter_unl g (input.enum.zipWith (fun p g => (p.1, p.2, g)) codes)
  have h3 : (input.enum.zipWith (fun p g => (p.1, p.2, g)) codes).filter
      (fun it => decide (it.2.2 = g) && it.2.1.reefID.isNone) =
      (input.enum.zipWith (fun p g => (p.1, p.2, g)) codes).filter
        (fun it => decide (encode_grid alpha it.2.1.lon it.2.1.lat = some g) &&
          it.2.1.reefID.isNone) := by
    refine List.filter_congr ?_
    intro it hit
    obtain ⟨hin, hcd⟩ := mem_items_spec hit
    obtain ⟨-, hspec⟩ := grid_codes_spec input codes hcodes
    obtain ⟨c, hc, henc⟩ := hspec it.1 it.2.1 hin
    have hceq : c = it.2.2 := Option.some_inj.mp (hc.symm.trans hcd)
    subst hceq
    have hiff : (it.2.2 = g) ↔ (encode_grid alpha it.2.1.lon it.2.1.lat = some g) := by
      constructor
      · intro hh
        rw [hh] at henc
        exact henc
      · intro hh
        exact Option.some_inj.mp (henc.symm.trans hh)
    exact congrArg (fun b => b && it.2.1.reefID.isNone) (decide_eq_decide.mpr hiff)
  have h4 : ((input.enum.zipWith (fun p g => (p.1, p.2, g)) codes).filter
      (fun it => decide (encode_grid alpha it.2.1.lon it.2.1.lat = some g) &&
        it.2.1.reefID.isNone)).map (fun it => it.2.1) =
      ((input.enum.zipWith (fun p g => (p.1, p.2, g)) codes).map
        (fun it => it.2.1)).filter
        (fun f => decide (encode_grid alpha f.lon f.lat = some g) && f.reefID.isNone) :=
    filter_comp_map (fun it : Nat × Feature × Str => it.2.1)
      (fun f : Feature => decide (encode_grid alpha f.lon f.lat = some g) && f.reefID.isNone) _
  rw [items_map_feature hlen] at h4
  refine h1.trans ?_
  rw [h2, h3, h4]

theorem new_features_eq_features (alpha pfx : Str) (pad : Nat) (st0 : AllocState)
    (items : List (Nat × Feature × Str)) (g : Str) :
    new_features alpha pfx pad st0 items g =
      (assign_features alpha pfx pad g st0
        (((sort_group (group_features items g)).filter
          (fun it => it.2.reefID.isNone)).map Prod.snd)).map
        (fun q => { q.1 with reefID := some (reef_id pfx g (encode_counter alpha q.2 pad)) }) := by
  unfold new_features
  rw [← assign_pairs_features, List.map_map]
  rfl

/-- C7 (amended): over inputs that are permutations of each other — same
features, any row order — two successful runs with the same prefix, padding
and alphabet produce outputs that are permutations of each other, so every
feature receives the same identifier, provided no two distinct unlabelled
features of the same grid cell share a centroid sum. Ties in the centroid
sum of distinct features make the assignment depend on the input row order
(see the counterexample), because the stable sort keeps tied rows in input
order. -/
theorem C7_order_independent {alpha : Str} (hv : valid_alphabet alpha) {pfx : Str} {pad : Nat}
    {input1 input2 out1 out2 : List Feature}
    (hperm : List.Perm input2 input1)
    (hties : ∀ f1 ∈ input1, ∀ f2 ∈ input1, f1.reefID = none → f2.reefID = none →
      encode_grid alpha f1.lon f1.lat = encode_grid alpha f2.lon f2.lat →
      centroid_sum f1 = centroid_sum f2 → f1 = f2)
    (h1 : process_shapefile alpha pfx pad input1 = Except.ok out1)
    (h2 : process_shapefile alpha pfx pad input2 = Except.ok out2) :
    List.Perm out2 out1 := by
  obtain ⟨st1, codes1, hinit1, hcodes1, -⟩ := process_shapefile_ok h1
  obtain ⟨st2, codes2, hinit2, hcodes2, -⟩ := process_shapefile_ok h2
  obtain rfl : st1 = st2 := (init_state_perm hperm hinit1 hinit2).symm
  have hd1 := run_perm_decomp hv hinit1 hcodes1 h1
  have hd2 := run_perm_decomp hv hinit2 hcodes2 h2
  have hlab := hperm.filter (fun f : Feature => !f.reefID.isNone)
  have hs : ∀ g : Str,
      ((sort_group (group_features
        (input2.enum.zipWith (fun p g => (p.1, p.2, g)) codes2) g)).filter
        (fun it => it.2.reefID.isNone)).map Prod.snd =
      ((sort_group (group_features
        (input1.enum.zipWith (fun p g => (p.1, p.2, g)) codes1) g)).filter
        (fun it => it.2.reefID.isNone)).map Prod.snd := by
    intro g
    have hp2 := sorted_unl_perm hcodes2 g
    have hp1 := sorted_unl_perm hcodes1 g
    have hpin : List.Perm
        (input2.filter (fun f => decide (encode_grid alpha f.lon f.lat = some g) &&
          f.reefID.isNone))
        (input1.filter (fun f => decide (encode_grid alpha f.lon f.lat = some g) &&
          f.reefID.isNone)) :=
      hperm.filter _
    have hpp := hp2.trans (hpin.trans hp1.symm)
    refine eq_of_perm_sorted_key centroid_sum _ _ hpp
      (sorted_unl_sorted _ g) (sorted_unl_sorted _ g) ?_
    intro a ha b hb hk
    have hma : a ∈ input1.filter (fun f => decide (encode_grid alpha f.lon f.lat = some g) &&
        f.reefID.isNone) := (hp2.trans hpin).mem_iff.mp ha
    have hmb : b ∈ input1.filter (fun f => decide (encode_grid alpha f.lon f.lat = some g) &&
        f.reefID.isNone) := (hp2.trans hpin).mem_iff.mp hb
    obtain ⟨hain, haq⟩ := List.mem_filter.mp hma
    obtain ⟨hbin, hbq⟩ := List.mem_filter.mp hmb
    obtain ⟨ha1, ha2⟩ := Bool.and_eq_true_iff.mp haq
    obtain ⟨hb1, hb2⟩ := Bool.and_eq_true_iff.mp hbq
    exact hties a hain b hbin (Option.isNone_iff_eq_none.mp ha2)
      (Option.isNone_iff_eq_none.mp hb2)
      ((of_decide_eq_true ha1).trans (of_decide_eq_true hb1).symm) hk
  have hnf : ∀ g : Str,
      new_features alpha pfx pad st1
        (input2.enum.zipWith (fun p g => (p.1, p.2, g)) codes2) g =
      new_features alpha pfx pad st1
        (input1.enum.zipWith (fun p g => (p.1, p.2, g)) codes1) g := by
    intro g
    rw [new_features_eq_features, new_features_eq_features, hs g]
  have huc : List.Perm (unique_codes codes2) (unique_codes codes1) := by
    refine (List.perm_ext_iff_of_nodup (unique_codes_nodup _) (unique_codes_nodup _)).mpr ?_
    intro g
    rw [mem_unique_codes_iff, mem_unique_codes_iff, mem_codes_iff hcodes2,
      mem_codes_iff hcodes1]
    constructor
    · rintro ⟨f, hf, he⟩
      exact ⟨f, hperm.subset hf, he⟩
    · rintro ⟨f, hf, he⟩
      exact ⟨f, hperm.symm.subset hf, he⟩
  have hbind2 : (unique_codes codes2).bind (new_features alpha pfx pad st1
      (input2.enum.zipWith (fun p g => (p.1, p.2, g)) codes2)) =
      (unique_codes codes2).bind (new_features alpha pfx pad st1
        (input1.enum.zipWith (fun p g => (p.1, p.2, g)) codes1)) :=
    List.bind_congr (fun g _ => hnf g)
  have hfin : List.Perm
      ((unique_codes codes2).bind (new_features alpha pfx pad st1
        (input2.enum.zipWith (fun p g => (p.1, p.2, g)) codes2)) ++
       input2.filter (fun f => !f.reefID.isNone))
      ((unique_codes codes1).bind (new_features alpha pfx pad st1
        (input1.enum.zipWith (fun p g => (p.1, p.2, g)) codes1)) ++
       input1.filter (fun f => !f.reefID.isNone)) := by
    rw [hbind2]
    exact (huc.bind_right _).append hlab
  exact hd2.trans (hfin.trans hd1.symm)

theorem run_mix_ab :
    process_shapefile BASE_B10 ['R'] 3 [sampleLabeledB, sampleUnlabeled] =
      Except.ok [sampleLabeledB, ⟨147, -20, ['c'], some ("R-9038-000".toList)⟩] := by
  have hcodes : grid_codes BASE_B10 [sampleLabeledB, sampleUnlabeled] =
      Except.ok [['7', '7', '5', '5'], ['9', '0', '3', '8']] := by
    unfold grid_codes
    rw [List.mapM_cons, code_of_eval sampleLabeledB encode_grid_b10_100_10,
      List.mapM_cons, code_of_eval sampleUnlabeled encode_grid_b10_147_m20, List.mapM_nil]
    rfl
  unfold process_shapefile
  rw [hcodes]
  decide

theorem run_mix_ba :
    process_shapefile BASE_B10 ['R'] 3 [sampleUnlabeled, sampleLabeledB] =
      Except.ok [⟨147, -20, ['c'], some ("R-9038-000".toList)⟩, sampleLabeledB] := by
  have hcodes : grid_codes BASE_B10 [sampleUnlabeled, sampleLabeledB] =
      Except.ok [['9', '0', '3', '8'], ['7', '7', '5', '5']] := by
    unfold grid_codes
    rw [List.mapM_cons, code_of_eval sampleUnlabeled encode_grid_b10_147_m20,
      List.mapM_cons, code_of_eval sampleLabeledB encode_grid_b10_100_10, List.mapM_nil]
    rfl
  unfold process_shapefile
  rw [hcodes]
  decide

theorem ties_mix : ∀ f1 ∈ [sampleLabeledB, sampleUnlabeled],
    ∀ f2 ∈ [sampleLabeledB, sampleUnlabeled],
    f1.reefID = none → f2.reefID = none →
    encode_grid BASE_B10 f1.lon f1.lat = encode_grid BASE_B10 f2.lon f2.lat →
    centroid_sum f1 = centroid_sum f2 → f1 = f2 := by
  intro f1 h1 f2 h2 hn1 hn2 _ _
  rcases List.mem_cons.mp h1 with rfl | h1
  · exact absurd hn1 (by decide)
  rcases List.mem_cons.mp h1 with rfl | h1
  · rcases List.mem_cons.mp h2 with rfl | h2
    · exact absurd hn2 (by decide)
    rcases List.mem_cons.mp h2 with rfl | h2
    · rfl
    · exact absurd h2 (List.not_mem_nil f2)
  · exact absurd h1 (List.not_mem_nil f1)

/-- C7 (counterexample): two distinct unlabelled features at the same
centroid (147, -20) fall in the same grid cell with tied centroid sums;
swapping the two input rows swaps which feature receives `R-9038-000` and
which receives `R-9038-001`, so the assignment is not independent of the
input row order. -/
theorem C7_counterexample :
    ∃ out1 out2,
      process_shapefile BASE_B10 ['R'] 3 [sampleUnlabeled, tieB] = Except.ok out1 ∧
      process_shapefile BASE_B10 ['R'] 3 [tieB, sampleUnlabeled] = Except.ok out2 ∧
      (out1.find? (fun f => decide (f.attrs = sampleUnlabeled.attrs))).map Feature.reefID ≠
        (out2.find? (fun f => decide (f.attrs = sampleUnlabeled.attrs))).map Feature.reefID :=
  ⟨_, _, run_tie_ab, run_tie_ba, by decide⟩

/-- C7 (witness): the amended order-independence theorem applied to a
two-row input with distinct centroid sums, in both row orders. -/
theorem C7_witness :
    List.Perm [sampleUnlabeled, sampleLabeledB] [sampleLabeledB, sampleUnlabeled] ∧
    List.Perm
      [⟨147, -20, ['c'], some ("R-9038-000".toList)⟩, sampleLabeledB]
      [sampleLabeledB, ⟨147, -20, ['c'], some ("R-9038-000".toList)⟩] :=
  ⟨List.Perm.swap sampleLabeledB sampleUnlabeled [],
    C7_order_independent (by decide) (List.Perm.swap sampleLabeledB sampleUnlabeled [])
      ties_mix run_mix_ab run_mix_ba⟩

end CSF
